import Mathlib

set_option maxRecDepth 100000

/-!
Verification of the entrance randomizer core (`randomizers/entrances.py`).

The Python source is shallowly embedded: the frozen dataclasses `ZoneEntrance`
and `ZoneExit` become Lean structures, the module-level catalog lists are
transcribed verbatim, Python dicts become association lists with
overwrite-on-existing-key insertion, the random source is an arbitrary
stream of naturals (`choice` picks index `k % len`), and the `while` loops
are modelled with an explicit fuel parameter.  Raised exceptions become
`Except` errors, and calls to the external stage-data collaborator become
entries appended to a mutation log.
-/

namespace WWR

structure ZoneEntrance where
  stage_name : String
  room_num : Nat
  scls_exit_index : Nat
  spawn_id : Nat
  entrance_name : String
  island_name : Option String := none
  warp_out_stage_name : Option String := none
  warp_out_room_num : Option Nat := none
  warp_out_spawn_id : Option Nat := none
  deriving DecidableEq

/-- Python property `is_nested`: `self.island_name is None`. -/
def ZoneEntrance.is_nested (e : ZoneEntrance) : Bool :=
  e.island_name.isNone

def DUNGEON_ENTRANCES : List ZoneEntrance := [
  ⟨"Adanmae", 0, 2, 2, "Dungeon Entrance on Dragon Roost Island", some "Dragon Roost Island", some "sea", some 13, some 211⟩,
  ⟨"sea", 41, 6, 6, "Dungeon Entrance in Forest Haven Sector", some "Forest Haven", some "Omori", some 0, some 215⟩,
  ⟨"sea", 26, 0, 2, "Dungeon Entrance in Tower of the Gods Sector", some "Tower of the Gods", some "sea", some 26, some 1⟩,
  ⟨"Edaichi", 0, 0, 1, "Dungeon Entrance on Headstone Island", some "Headstone Island", some "sea", some 45, some 229⟩,
  ⟨"Ekaze", 0, 0, 1, "Dungeon Entrance on Gale Isle", some "Gale Isle", some "sea", some 4, some 232⟩]

def BOSS_ENTRANCES : List ZoneEntrance := [
  ⟨"M_NewD2", 10, 1, 27, "Boss Entrance in Dragon Roost Cavern", none, none, none, none⟩,
  ⟨"kindan", 16, 0, 1, "Boss Entrance in Forbidden Woods", none, none, none, none⟩,
  ⟨"Siren", 18, 0, 27, "Boss Entrance in Tower of the Gods", none, none, none, none⟩,
  ⟨"M_Dai", 15, 0, 27, "Boss Entrance in Earth Temple", none, none, none, none⟩,
  ⟨"kaze", 12, 0, 27, "Boss Entrance in Wind Temple", none, none, none, none⟩]

def SECRET_CAVE_ENTRANCES : List ZoneEntrance := [
  ⟨"sea", 44, 8, 10, "Secret Cave Entrance on Outset Island", some "Outset Island", some "sea", some 44, some 10⟩,
  ⟨"sea", 13, 2, 5, "Secret Cave Entrance on Dragon Roost Island", some "Dragon Roost Island", some "sea", some 13, some 5⟩,
  ⟨"sea", 20, 0, 0, "Secret Cave Entrance on Fire Mountain", some "Fire Mountain", some "sea", some 20, some 0⟩,
  ⟨"sea", 40, 0, 0, "Secret Cave Entrance on Ice Ring Isle", some "Ice Ring Isle", some "sea", some 40, some 0⟩,
  ⟨"Abesso", 0, 1, 1, "Secret Cave Entrance on Private Oasis", some "Private Oasis", some "Abesso", some 0, some 1⟩,
  ⟨"sea", 29, 0, 5, "Secret Cave Entrance on Needle Rock Isle", some "Needle Rock Isle", some "sea", some 29, some 5⟩,
  ⟨"sea", 47, 1, 5, "Secret Cave Entrance on Angular Isles", some "Angular Isles", some "sea", some 47, some 5⟩,
  ⟨"sea", 48, 0, 5, "Secret Cave Entrance on Boating Course", some "Boating Course", some "sea", some 48, some 5⟩,
  ⟨"sea", 31, 0, 1, "Secret Cave Entrance on Stone Watcher Island", some "Stone Watcher Island", some "sea", some 31, some 1⟩,
  ⟨"sea", 7, 0, 1, "Secret Cave Entrance on Overlook Island", some "Overlook Island", some "sea", some 7, some 1⟩,
  ⟨"sea", 35, 0, 1, "Secret Cave Entrance on Bird's Peak Rock", some "Bird's Peak Rock", some "sea", some 35, some 1⟩,
  ⟨"sea", 12, 0, 1, "Secret Cave Entrance on Pawprint Isle", some "Pawprint Isle", some "sea", some 12, some 1⟩,
  ⟨"sea", 12, 1, 5, "Secret Cave Entrance on Pawprint Isle Side Isle", some "Pawprint Isle", some "sea", some 12, some 5⟩,
  ⟨"sea", 36, 0, 1, "Secret Cave Entrance on Diamond Steppe Island", some "Diamond Steppe Island", some "sea", some 36, some 1⟩,
  ⟨"sea", 34, 0, 1, "Secret Cave Entrance on Bomb Island", some "Bomb Island", some "sea", some 34, some 1⟩,
  ⟨"sea", 16, 0, 1, "Secret Cave Entrance on Rock Spire Isle", some "Rock Spire Isle", some "sea", some 16, some 1⟩,
  ⟨"sea", 38, 0, 5, "Secret Cave Entrance on Shark Island", some "Shark Island", some "sea", some 38, some 5⟩,
  ⟨"sea", 42, 0, 2, "Secret Cave Entrance on Cliff Plateau Isles", some "Cliff Plateau Isles", some "sea", some 42, some 2⟩,
  ⟨"sea", 43, 0, 5, "Secret Cave Entrance on Horseshoe Island", some "Horseshoe Island", some "sea", some 43, some 5⟩,
  ⟨"sea", 2, 0, 1, "Secret Cave Entrance on Star Island", some "Star Island", some "sea", some 2, some 1⟩]

def ALL_ENTRANCES : List ZoneEntrance :=
  DUNGEON_ENTRANCES ++ BOSS_ENTRANCES ++ SECRET_CAVE_ENTRANCES

structure ZoneExit where
  stage_name : String
  room_num : Nat
  scls_exit_index : Nat
  spawn_id : Nat
  zone_name : String
  unique_name : String
  boss_stage_name : Option String := none
  deriving DecidableEq

def DUNGEON_EXITS : List ZoneExit := [
  ⟨"M_NewD2", 0, 0, 0, "Dragon Roost Cavern", "Dragon Roost Cavern", some "M_DragB"⟩,
  ⟨"kindan", 0, 0, 0, "Forbidden Woods", "Forbidden Woods", some "kinBOSS"⟩,
  ⟨"Siren", 0, 1, 0, "Tower of the Gods", "Tower of the Gods", some "SirenB"⟩,
  ⟨"M_Dai", 0, 0, 0, "Earth Temple", "Earth Temple", some "M_DaiB"⟩,
  ⟨"kaze", 15, 0, 15, "Wind Temple", "Wind Temple", some "kazeB"⟩]

def BOSS_EXITS : List ZoneExit := [
  ⟨"M_DragB", 0, 0, 0, "Gohma Boss Arena", "Gohma Boss Arena", none⟩,
  ⟨"kinBOSS", 0, 0, 0, "Kalle Demos Boss Arena", "Kalle Demos Boss Arena", none⟩,
  ⟨"SirenB", 0, 0, 0, "Gohdan Boss Arena", "Gohdan Boss Arena", none⟩,
  ⟨"M_DaiB", 0, 0, 0, "Jalhalla Boss Arena", "Jalhalla Boss Arena", none⟩,
  ⟨"kazeB", 0, 0, 0, "Molgera Boss Arena", "Molgera Boss Arena", none⟩]

def SECRET_CAVE_EXITS : List ZoneExit := [
  ⟨"Cave09", 0, 1, 0, "Outset Island", "Savage Labyrinth", none⟩,
  ⟨"TF_06", 0, 0, 0, "Dragon Roost Island", "Dragon Roost Island Secret Cave", none⟩,
  ⟨"MiniKaz", 0, 0, 0, "Fire Mountain", "Fire Mountain Secret Cave", none⟩,
  ⟨"MiniHyo", 0, 0, 0, "Ice Ring Isle", "Ice Ring Isle Secret Cave", none⟩,
  ⟨"TF_04", 0, 0, 0, "Private Oasis", "Cabana Labyrinth", none⟩,
  ⟨"SubD42", 0, 0, 0, "Needle Rock Isle", "Needle Rock Isle Secret Cave", none⟩,
  ⟨"SubD43", 0, 0, 0, "Angular Isles", "Angular Isles Secret Cave", none⟩,
  ⟨"SubD71", 0, 0, 0, "Boating Course", "Boating Course Secret Cave", none⟩,
  ⟨"TF_01", 0, 0, 0, "Stone Watcher Island", "Stone Watcher Island Secret Cave", none⟩,
  ⟨"TF_02", 0, 0, 0, "Overlook Island", "Overlook Island Secret Cave", none⟩,
  ⟨"TF_03", 0, 0, 0, "Bird's Peak Rock", "Bird's Peak Rock Secret Cave", none⟩,
  ⟨"TyuTyu", 0, 0, 0, "Pawprint Isle", "Pawprint Isle Chuchu Cave", none⟩,
  ⟨"Cave07", 0, 0, 0, "Pawprint Isle Side Isle", "Pawprint Isle Wizzrobe Cave", none⟩,
  ⟨"WarpD", 0, 0, 0, "Diamond Steppe Island", "Diamond Steppe Island Warp Maze Cave", none⟩,
  ⟨"Cave01", 0, 0, 0, "Bomb Island", "Bomb Island Secret Cave", none⟩,
  ⟨"Cave04", 0, 0, 0, "Rock Spire Isle", "Rock Spire Isle Secret Cave", none⟩,
  ⟨"ITest63", 0, 0, 0, "Shark Island", "Shark Island Secret Cave", none⟩,
  ⟨"Cave03", 0, 0, 0, "Cliff Plateau Isles", "Cliff Plateau Isles Secret Cave", none⟩,
  ⟨"Cave05", 0, 0, 0, "Horseshoe Island", "Horseshoe Island Secret Cave", none⟩,
  ⟨"Cave02", 0, 0, 0, "Star Island", "Star Island Secret Cave", none⟩]

def ALL_EXITS : List ZoneExit :=
  DUNGEON_EXITS ++ BOSS_EXITS ++ SECRET_CAVE_EXITS

def DUNGEON_ENTRANCE_NAMES_WITH_NO_REQUIREMENTS : List String := [
  "Dungeon Entrance on Dragon Roost Island"]

def SECRET_CAVE_ENTRANCE_NAMES_WITH_NO_REQUIREMENTS : List String := [
  "Secret Cave Entrance on Pawprint Isle",
  "Secret Cave Entrance on Cliff Plateau Isles"]

def DUNGEON_EXIT_NAMES_WITH_NO_REQUIREMENTS : List String := [
  "Dragon Roost Cavern"]

def PUZZLE_SECRET_CAVE_EXIT_NAMES_WITH_NO_REQUIREMENTS : List String := [
  "Pawprint Isle Chuchu Cave",
  "Ice Ring Isle Secret Cave",
  "Bird's Peak Rock Secret Cave",
  "Diamond Steppe Island Warp Maze Cave"]

def COMBAT_SECRET_CAVE_EXIT_NAMES_WITH_NO_REQUIREMENTS : List String := [
  "Rock Spire Isle Secret Cave"]

def ITEM_LOCATION_NAME_TO_EXIT_ZONE_NAME_OVERRIDES : List (String × String) := [
  ("Pawprint Isle - Wizzrobe Cave", "Pawprint Isle Side Isle"),
  ("Dragon Roost Cavern - Gohma Heart Container", "Gohma Boss Arena"),
  ("Forbidden Woods - Kalle Demos Heart Container", "Kalle Demos Boss Arena"),
  ("Tower of the Gods - Gohdan Heart Container", "Gohdan Boss Arena"),
  ("Earth Temple - Jalhalla Heart Container", "Jalhalla Boss Arena"),
  ("Wind Temple - Molgera Heart Container", "Molgera Boss Arena")]

/-! ### Dictionaries

Python `dict`s are modelled as association lists in insertion order.
Assignment `d[k] = v` replaces the value in place when the key exists and
appends otherwise, exactly like a Python dict (which keeps the original
insertion position on overwrite). -/

def dictSet [DecidableEq α] (l : List (α × β)) (k : α) (v : β) : List (α × β) :=
  if l.any (fun p => decide (p.1 = k)) then
    l.map (fun p => if p.1 = k then (k, v) else p)
  else
    l ++ [(k, v)]

def dictGet [DecidableEq α] (l : List (α × β)) (k : α) : Option β :=
  (l.find? (fun p => decide (p.1 = k))).map (fun p => p.2)

/-! ### Nested-chain resolution

`get_all_entrances_on_path_to_entrance` walks owning-dungeon links while the
current entrance is nested.  It returns `None` (here `.incomplete`) when the
owning dungeon exit is not yet connected, and raises (here `.cycleErr`) when a
visited entrance reappears.  The Python `while` loop is modelled with fuel;
`.fuelOut` marks fuel exhaustion and is proved unreachable for catalog data.
`.catalogErr` models the `assert`/`StopIteration` failures of
`get_dungeon_start_exit_leading_to_nested_entrance` on non-catalog input. -/

/-- `pre` is a character-wise prefix of `s` (Python `str.startswith`),
written out on `List Char` so that it reduces inside the kernel. -/
def charsStartWith : List Char → List Char → Bool
  | [], _ => true
  | _ :: _, [] => false
  | p :: ps, c :: cs => p == c && charsStartWith ps cs

def strStartsWith (s pre : String) : Bool :=
  charsStartWith pre.data s.data

/-- Python slicing `s[n:]`, character-wise. -/
def strDrop (s : String) (n : Nat) : String :=
  String.mk (s.data.drop n)

def get_dungeon_start_exit_leading_to_nested_entrance (e : ZoneEntrance) : Option ZoneExit :=
  if strStartsWith e.entrance_name "Boss Entrance in " then
    DUNGEON_EXITS.find? (fun x => decide (x.unique_name = strDrop e.entrance_name "Boss Entrance in ".length))
  else
    none

/-- Lookup in the `done_exits_to_entrances` dict. -/
def lookupX2E (m : List (ZoneExit × ZoneEntrance)) (x : ZoneExit) : Option ZoneEntrance :=
  dictGet m x

inductive ChainRes where
  | complete (seen : List ZoneEntrance)
  | incomplete
  | cycleErr
  | catalogErr
  | fuelOut
  deriving DecidableEq

def get_all_entrances_on_path_to_entrance (fuel : Nat) (seen : List ZoneEntrance)
    (zone_entrance : ZoneEntrance) (m : List (ZoneExit × ZoneEntrance)) : ChainRes :=
  match fuel with
  | 0 => .fuelOut
  | fuel + 1 =>
    if zone_entrance.is_nested then
      if zone_entrance ∈ seen then
        .cycleErr
      else
        match get_dungeon_start_exit_leading_to_nested_entrance zone_entrance with
        | none => .catalogErr
        | some dungeon_start_exit =>
          match lookupX2E m dungeon_start_exit with
          | none => .incomplete
          | some next_entrance =>
            get_all_entrances_on_path_to_entrance fuel (seen ++ [zone_entrance]) next_entrance m
    else
      .complete (seen ++ [zone_entrance])

/-- The nesting depth is bounded by the five boss entrances, so fuel
`BOSS_ENTRANCES.length + 1` always suffices on catalog data. -/
def chainFuel : Nat := BOSS_ENTRANCES.length + 1

def resolveChain (e : ZoneEntrance) (m : List (ZoneExit × ZoneEntrance)) : ChainRes :=
  get_all_entrances_on_path_to_entrance chainFuel [] e m

/-! ### Random source

The Python `random.Random` instance is externalized: the result of
`rng.shuffle(relevant_entrances)` is passed in as a list (theorems assume it
is a permutation of the relevant entrances), and each `rng.choice(seq)`
consumes one value `k` from an arbitrary stream of naturals and picks
`seq[k % len(seq)]`; `choice` on an empty sequence raises `IndexError`. -/

def rngChoice (k : Nat) : List α → Option α
  | [] => none
  | x :: xs => some ((x :: xs).getD (k % (xs.length + 1)) x)

/-! ### The randomization engine -/

structure EngineOptions where
  race_mode : Bool := false
  progression_dungeons : Bool := false
  progression_puzzle_secret_caves : Bool := false
  progression_combat_secret_caves : Bool := false
  progression_savage_labyrinth : Bool := false
  dungeons_and_caves_only_start : Bool := false
  dry_run : Bool := false
  deriving DecidableEq

def relevantEntrancesFor (d b c : Bool) : List ZoneEntrance :=
  (if d then DUNGEON_ENTRANCES else []) ++
  (if b then BOSS_ENTRANCES else []) ++
  (if c then SECRET_CAVE_ENTRANCES else [])

def relevantExitsFor (d b c : Bool) : List ZoneExit :=
  (if d then DUNGEON_EXITS else []) ++
  (if b then BOSS_EXITS else []) ++
  (if c then SECRET_CAVE_EXITS else [])

/-- Lines 183-190: whether the safety-entrance bootstrap applies. -/
def doingProgressFlag (opts : EngineOptions) (d c : Bool) : Bool :=
  opts.dungeons_and_caves_only_start &&
    ((d && opts.progression_dungeons) ||
     (c && (opts.progression_puzzle_secret_caves || opts.progression_combat_secret_caves ||
            opts.progression_savage_labyrinth)))

/-- Lines 209-215. -/
def entranceNamesNoReq (opts : EngineOptions) : List String :=
  (if opts.progression_dungeons then DUNGEON_ENTRANCE_NAMES_WITH_NO_REQUIREMENTS else []) ++
  (if opts.progression_puzzle_secret_caves || opts.progression_combat_secret_caves ||
      opts.progression_savage_labyrinth then
    SECRET_CAVE_ENTRANCE_NAMES_WITH_NO_REQUIREMENTS else [])

/-- Lines 217-223. -/
def exitNamesNoReq (opts : EngineOptions) : List String :=
  (if opts.progression_dungeons then DUNGEON_EXIT_NAMES_WITH_NO_REQUIREMENTS else []) ++
  (if opts.progression_puzzle_secret_caves then PUZZLE_SECRET_CAVE_EXIT_NAMES_WITH_NO_REQUIREMENTS else []) ++
  (if opts.progression_combat_secret_caves then COMBAT_SECRET_CAVE_EXIT_NAMES_WITH_NO_REQUIREMENTS else [])

/-- Lines 195-203: race-mode island-grouping reorder.  Entrances sharing an
island with another relevant entrance are collected (in list order), removed,
and moved as a block to the front. -/
def entrancesNotOnUniqueIslands (l : List ZoneEntrance) : List ZoneEntrance :=
  l.filter (fun z => l.any (fun o => decide (o.island_name = z.island_name) && decide (¬ o = z)))

def raceModeReorder (l : List ZoneEntrance) : List ZoneEntrance :=
  let m := entrancesNotOnUniqueIslands l
  m ++ m.foldl (fun acc z => acc.erase z) l

/-- Lines 248-251: restrict the safety entrance to the no-requirement
allow-list. -/
def possibleStage1 (doing : Bool) (safety : Option ZoneEntrance) (exitNoReq : List String)
    (remaining : List ZoneExit) (e : ZoneEntrance) : List ZoneExit :=
  if doing && decide (safety = some e) then
    remaining.filter (fun x => decide (x.unique_name ∈ exitNoReq))
  else
    remaining

/-- Lines 253-255: while a dungeon exit is among the candidates, rebuild the
candidate list from `remaining_exits` without boss exits. -/
def possibleStage2 (doing : Bool) (safety : Option ZoneEntrance) (exitNoReq : List String)
    (remaining : List ZoneExit) (e : ZoneEntrance) : List ZoneExit :=
  if (possibleStage1 doing safety exitNoReq remaining e).any
      (fun x => decide (x ∈ DUNGEON_EXITS)) then
    remaining.filter (fun x => decide (x ∉ BOSS_EXITS))
  else
    possibleStage1 doing safety exitNoReq remaining e

/-- Lines 248-286: build `possible_remaining_exits` for one loop iteration
(the race-mode same-island exclusion is the final filter). -/
def possibleExitsFor (opts : EngineOptions) (doing : Bool) (safety : Option ZoneEntrance)
    (exitNoReq : List String) (e2x : List (ZoneEntrance × ZoneExit))
    (remaining : List ZoneExit) (e : ZoneEntrance) : List ZoneExit :=
  if opts.race_mode &&
      e2x.any (fun p => decide (p.1.island_name = e.island_name) && decide (p.2 ∈ DUNGEON_EXITS)) then
    (possibleStage2 doing safety exitNoReq remaining e).filter
      (fun x => decide (x ∉ DUNGEON_EXITS ++ BOSS_EXITS))
  else
    possibleStage2 doing safety exitNoReq remaining e

inductive RunError where
  | unsat (entrance_name : String)
  | cycleLoop
  | catalogAssert
  | chainFuelOut
  | outOfFuel
  | emptySafetyPool
  | internalErr
  deriving DecidableEq

structure LoopSt where
  pending : List ZoneEntrance
  remaining : List ZoneExit
  e2x : List (ZoneEntrance × ZoneExit)
  x2e : List (ZoneExit × ZoneEntrance)
  conns : List (String × String)
  idx : Nat
  deriving DecidableEq

/-- Lines 236-295: the main assignment loop. -/
def assignLoop (opts : EngineOptions) (doing : Bool) (safety : Option ZoneEntrance)
    (exitNoReq : List String) (stream : Nat → Nat) :
    Nat → LoopSt → Except RunError LoopSt
  | 0, _ => .error .outOfFuel
  | fuel + 1, st =>
    match st.pending with
    | [] => .ok st
    | e :: rest =>
      match resolveChain e st.x2e with
      | .incomplete =>
        assignLoop opts doing safety exitNoReq stream fuel { st with pending := rest ++ [e] }
      | .complete _ =>
        match possibleExitsFor opts doing safety exitNoReq st.e2x st.remaining e with
        | [] => .error (.unsat e.entrance_name)
        | x :: xs =>
          let chosen := (x :: xs).getD (stream st.idx % (xs.length + 1)) x
          assignLoop opts doing safety exitNoReq stream fuel {
            pending := rest,
            remaining := st.remaining.erase chosen,
            e2x := dictSet st.e2x e chosen,
            x2e := dictSet st.x2e chosen e,
            conns := dictSet st.conns e.entrance_name chosen.unique_name,
            idx := st.idx + 1 }
      | .cycleErr => .error .cycleLoop
      | .catalogErr => .error .catalogAssert
      | .fuelOut => .error .chainFuelOut

/-- One call to the external stage-data collaborator (its internals are out of
scope; §6 of the spec treats each call as one opaque mutation). -/
inductive Mutation where
  | entranceUpdate (zone_entrance : ZoneEntrance) (zone_exit : ZoneExit) (outermost : ZoneEntrance)
  | bossWarp (boss_stage_name : Option String) (outermost : ZoneEntrance)
  deriving DecidableEq

structure RunOut where
  e2x : List (ZoneEntrance × ZoneExit)
  x2e : List (ZoneExit × ZoneEntrance)
  conns : List (String × String)
  islandLocs : List (String × Option String)
  nestedPaths : List (List String)
  deriving DecidableEq

/-- Lines 299-305: per placed pairing, record the outermost island in
`dungeon_and_cave_island_locations` and (unless dry-run) rewire the stage
data.  Iterates `done_exits_to_entrances.items()` in insertion order; the
dict lookup of the iterated key yields the iterated value, so the chain is
resolved directly from the paired entrance. -/
def islandLocPhase (x2eFull : List (ZoneExit × ZoneEntrance)) (dry : Bool) :
    List (ZoneExit × ZoneEntrance) → List (String × Option String) → List Mutation →
    Except (RunError × List Mutation) (List (String × Option String) × List Mutation)
  | [], locs, muts => .ok (locs, muts)
  | (x, e) :: rest, locs, muts =>
    match resolveChain e x2eFull with
    | .complete l =>
      match l.getLast? with
      | some outermost =>
        islandLocPhase x2eFull dry rest
          (dictSet locs x.zone_name outermost.island_name)
          (muts ++ (if dry then [] else [.entranceUpdate e x outermost]))
      | none => .error (.internalErr, muts)
    | .incomplete => .error (.internalErr, muts)
    | .cycleErr => .error (.cycleLoop, muts)
    | .catalogErr => .error (.catalogAssert, muts)
    | .fuelOut => .error (.chainFuelOut, muts)

/-- Lines 307-311 (`include_bosses` branch): update each boss stage's
warp-out destination.  The resolution happens inside the `dry_run` guard. -/
def bossWarpAllPhase (x2eFull : List (ZoneExit × ZoneEntrance)) (dry : Bool) :
    List ZoneExit → List Mutation → Except (RunError × List Mutation) (List Mutation)
  | [], muts => .ok muts
  | bx :: rest, muts =>
    if dry then
      bossWarpAllPhase x2eFull dry rest muts
    else
      match lookupX2E x2eFull bx with
      | none => .error (.internalErr, muts)
      | some e =>
        match resolveChain e x2eFull with
        | .complete l =>
          match l.getLast? with
          | some outermost =>
            bossWarpAllPhase x2eFull dry rest (muts ++ [.bossWarp (some bx.stage_name) outermost])
          | none => .error (.internalErr, muts)
        | .incomplete => .error (.internalErr, muts)
        | .cycleErr => .error (.cycleLoop, muts)
        | .catalogErr => .error (.catalogAssert, muts)
        | .fuelOut => .error (.chainFuelOut, muts)

/-- Lines 312-324 (`elif include_dungeons` branch): for each dungeon exit,
the "outermost" entrance is the directly connected entrance; the paired boss
arena's island-attribution entry is set even though bosses were not
randomized. -/
def dungeonBossPhase (x2eFull : List (ZoneExit × ZoneEntrance)) (dry : Bool) :
    List ZoneExit → List (String × Option String) → List Mutation →
    Except (RunError × List Mutation) (List (String × Option String) × List Mutation)
  | [], locs, muts => .ok (locs, muts)
  | dx :: rest, locs, muts =>
    match lookupX2E x2eFull dx with
    | none => .error (.internalErr, muts)
    | some outermost =>
      let muts' := muts ++ (if dry then [] else [.bossWarp dx.boss_stage_name outermost])
      match BOSS_EXITS.find? (fun z => decide (some z.stage_name = dx.boss_stage_name)) with
      | none => .error (.internalErr, muts')
      | some boss_exit =>
        dungeonBossPhase x2eFull dry rest
          (dictSet locs boss_exit.zone_name outermost.island_name) muts'

/-- Lines 326-337: spoiler-log nesting paths for every non-dungeon relevant
exit. -/
def nestedPathsPhase (x2eFull : List (ZoneExit × ZoneEntrance)) :
    List ZoneExit → List (List String) → Except RunError (List (List String))
  | [], paths => .ok paths
  | t :: rest, paths =>
    match lookupX2E x2eFull t with
    | none => .error .internalErr
    | some e =>
      match resolveChain e x2eFull with
      | .complete seen =>
        nestedPathsPhase x2eFull rest
          (paths ++ [(t.unique_name :: seen.map (fun entr => entr.entrance_name)).reverse])
      | .incomplete => .error .internalErr
      | .cycleErr => .error .cycleLoop
      | .catalogErr => .error .catalogAssert
      | .fuelOut => .error .chainFuelOut

/-- Lines 297-337: everything after the assignment loop succeeds. -/
def finishRun (opts : EngineOptions) (d b c : Bool) (st : LoopSt) :
    Except RunError RunOut × List Mutation :=
  match islandLocPhase st.x2e opts.dry_run st.x2e [] [] with
  | .error (err, muts) => (.error err, muts)
  | .ok (locs, muts) =>
    if b then
      match bossWarpAllPhase st.x2e opts.dry_run BOSS_EXITS muts with
      | .error (err, muts') => (.error err, muts')
      | .ok muts' =>
        match nestedPathsPhase st.x2e ((relevantExitsFor d b c).filter (fun x => decide (x ∉ DUNGEON_EXITS))) [] with
        | .error err => (.error err, muts')
        | .ok paths => (.ok ⟨st.e2x, st.x2e, st.conns, locs, paths⟩, muts')
    else if d then
      match dungeonBossPhase st.x2e opts.dry_run DUNGEON_EXITS locs muts with
      | .error (err, muts') => (.error err, muts')
      | .ok (locs', muts') => (.ok ⟨st.e2x, st.x2e, st.conns, locs', []⟩, muts')
    else
      (.ok ⟨st.e2x, st.x2e, st.conns, locs, []⟩, muts)

/-- Line 192-203: the entrance list after the optional race-mode reorder. -/
def afterRaceList (opts : EngineOptions) (shuffled : List ZoneEntrance) : List ZoneEntrance :=
  if opts.race_mode then raceModeReorder shuffled else shuffled

/-- Lines 205-234: choose the safety entrance (a `rng.choice` on an empty
pool raises `IndexError`) and move it to the front of the queue. -/
def prepSafety (opts : EngineOptions) (d c : Bool) (shuffled : List ZoneEntrance)
    (stream : Nat → Nat) : Except RunError (Option ZoneEntrance × List ZoneEntrance × Nat) :=
  if doingProgressFlag opts d c then
    match rngChoice (stream 0)
        ((afterRaceList opts shuffled).filter
          (fun e => decide (e.entrance_name ∈ entranceNamesNoReq opts))) with
    | none => .error .emptySafetyPool
    | some s => .ok (some s, s :: (afterRaceList opts shuffled).erase s, 1)
  else
    .ok (none, afterRaceList opts shuffled, 0)

/-- Lines 167-337: `randomize_one_set_of_entrances`.  `shuffled` is the
relevant entrance list after `self.rng.shuffle`; `stream` feeds every later
`rng.choice`.  The returned mutation log records every call made to the
external stage-data collaborator, also on the error paths. -/
def runOneSet (opts : EngineOptions) (d b c : Bool) (shuffled : List ZoneEntrance)
    (stream : Nat → Nat) (fuel : Nat) : Except RunError RunOut × List Mutation :=
  match prepSafety opts d c shuffled stream with
  | .error err => (.error err, [])
  | .ok (safety, pending0, idx0) =>
    match assignLoop opts (doingProgressFlag opts d c) safety (exitNamesNoReq opts) stream fuel
        ⟨pending0, relevantExitsFor d b c, [], [], [], idx0⟩ with
    | .error err => (.error err, [])
    | .ok st => finishRun opts d b c st

/-- Lines 514-545: `get_entrance_zone_for_item_location`.  The helpers
`split_location_name_by_zone` and `is_dungeon_or_cave` live in the logic
module, which is outside this repository snapshot, so they are taken as
parameters. -/
def get_entrance_zone_for_item_location (splitZone : String → String × String)
    (isDungeonOrCave : String → Bool) (island_locations : List (String × Option String))
    (location_name : String) : Option String :=
  let zone_name0 := (splitZone location_name).1
  let zone_name :=
    match dictGet ITEM_LOCATION_NAME_TO_EXIT_ZONE_NAME_OVERRIDES location_name with
    | some ov => ov
    | none => zone_name0
  match dictGet island_locations zone_name with
  | some attributed =>
    if isDungeonOrCave location_name then
      if attributed = some "Tower of the Gods" then
        some "Tower of the Gods Sector"
      else
        attributed
    else
      if location_name = "Tower of the Gods - Sunken Treasure" then
        some "Tower of the Gods Sector"
      else
        some zone_name
  | none =>
    if location_name = "Tower of the Gods - Sunken Treasure" then
      some "Tower of the Gods Sector"
    else
      some zone_name

/-! ### Catalog facts (all decidable on the concrete registries) -/

theorem allEntrances_nodup : ALL_ENTRANCES.Nodup := by decide

theorem allExits_nodup : ALL_EXITS.Nodup := by decide

theorem relevantEntrancesFor_nodup (d b c : Bool) : (relevantEntrancesFor d b c).Nodup := by
  cases d <;> cases b <;> cases c <;> decide

theorem relevantExitsFor_nodup (d b c : Bool) : (relevantExitsFor d b c).Nodup := by
  cases d <;> cases b <;> cases c <;> decide

theorem relevantEntrancesFor_subset (d b c : Bool) :
    ∀ e ∈ relevantEntrancesFor d b c, e ∈ ALL_ENTRANCES := by
  cases d <;> cases b <;> cases c <;> decide

theorem relevantExitsFor_subset (d b c : Bool) :
    ∀ x ∈ relevantExitsFor d b c, x ∈ ALL_EXITS := by
  cases d <;> cases b <;> cases c <;> decide

theorem relevant_length_eq (d b c : Bool) :
    (relevantEntrancesFor d b c).length = (relevantExitsFor d b c).length := by
  cases d <;> cases b <;> cases c <;> decide

theorem nested_mem_boss : ∀ e ∈ ALL_ENTRANCES, e.is_nested = true → e ∈ BOSS_ENTRANCES := by
  decide

theorem boss_entrance_owner :
    ∀ e ∈ BOSS_ENTRANCES, ∃ dx, get_dungeon_start_exit_leading_to_nested_entrance e = some dx ∧
      dx ∈ DUNGEON_EXITS := by
  decide

theorem boss_entrances_nodup : BOSS_ENTRANCES.Nodup := by decide

theorem boss_entrances_length : BOSS_ENTRANCES.length = 5 := by decide

theorem boss_exits_nodup : BOSS_EXITS.Nodup := by decide

theorem dungeon_exit_not_boss : ∀ x ∈ DUNGEON_EXITS, x ∉ BOSS_EXITS := by decide

theorem boss_not_relevant_of_not_b (d c : Bool) :
    ∀ e ∈ BOSS_ENTRANCES, e ∉ relevantEntrancesFor d false c := by
  cases d <;> cases c <;> decide

theorem boss_exits_subset_relevant (d c : Bool) :
    ∀ x ∈ BOSS_EXITS, x ∈ relevantExitsFor d true c := by
  cases d <;> cases c <;> decide

theorem dungeon_exits_subset_relevant (b c : Bool) :
    ∀ x ∈ DUNGEON_EXITS, x ∈ relevantExitsFor true b c := by
  cases b <;> cases c <;> decide

theorem exitNamesNoReq_subset (opts : EngineOptions) :
    ∀ n ∈ exitNamesNoReq opts,
      n ∈ DUNGEON_EXIT_NAMES_WITH_NO_REQUIREMENTS ++
          PUZZLE_SECRET_CAVE_EXIT_NAMES_WITH_NO_REQUIREMENTS ++
          COMBAT_SECRET_CAVE_EXIT_NAMES_WITH_NO_REQUIREMENTS := by
  intro n hn
  unfold exitNamesNoReq at hn
  simp only [List.mem_append] at hn ⊢
  rcases hn with (h | h) | h
  · split at h
    · exact Or.inl (Or.inl h)
    · simp at h
  · split at h
    · exact Or.inl (Or.inr h)
    · simp at h
  · split at h
    · exact Or.inr h
    · simp at h

theorem boss_unique_name_not_noreq :
    ∀ x ∈ BOSS_EXITS,
      x.unique_name ∉ DUNGEON_EXIT_NAMES_WITH_NO_REQUIREMENTS ++
          PUZZLE_SECRET_CAVE_EXIT_NAMES_WITH_NO_REQUIREMENTS ++
          COMBAT_SECRET_CAVE_EXIT_NAMES_WITH_NO_REQUIREMENTS := by
  decide

/-! ### Association-list (dict) lemmas -/

theorem dictSet_fresh [DecidableEq α] (l : List (α × β)) (k : α) (v : β)
    (h : ∀ p ∈ l, p.1 ≠ k) : dictSet l k v = l ++ [(k, v)] := by
  unfold dictSet
  rw [if_neg]
  simp only [List.any_eq_true, not_exists, not_and]
  intro p hp
  simpa using h p hp

theorem dictGet_mem [DecidableEq α] {l : List (α × β)} {k : α} {v : β}
    (h : dictGet l k = some v) : (k, v) ∈ l := by
  unfold dictGet at h
  rcases Option.map_eq_some'.mp h with ⟨p, hfind, hv⟩
  have hk : p.1 = k := by simpa using List.find?_some hfind
  have hm := List.mem_of_find?_eq_some hfind
  have : p = (k, v) := by
    cases p; simp_all
  rwa [this] at hm

theorem dictGet_append [DecidableEq α] (l₁ l₂ : List (α × β)) (k : α) :
    dictGet (l₁ ++ l₂) k = ((dictGet l₁ k).or (dictGet l₂ k)) := by
  unfold dictGet
  rw [List.find?_append]
  cases h : l₁.find? (fun p => decide (p.1 = k)) <;> simp

theorem dictGet_eq_some_of_mem [DecidableEq α] {l : List (α × β)} {k : α} {v : β}
    (hnd : (l.map Prod.fst).Nodup) (hm : (k, v) ∈ l) : dictGet l k = some v := by
  induction l with
  | nil => simp at hm
  | cons p rest ih =>
    simp only [List.map_cons, List.nodup_cons] at hnd
    rcases List.mem_cons.mp hm with h | h
    · subst h
      unfold dictGet
      simp [List.find?_cons]
    · have hne : p.1 ≠ k := by
        intro hk
        exact hnd.1 (hk ▸ (List.mem_map.mpr ⟨(k, v), h, rfl⟩))
      unfold dictGet
      rw [List.find?_cons]
      simp only [hne, decide_eq_true_eq, if_neg]
      exact ih hnd.2 h

theorem dictGet_isSome_of_mem_keys [DecidableEq α] {l : List (α × β)} {k : α}
    (h : k ∈ l.map Prod.fst) : (dictGet l k).isSome = true := by
  induction l with
  | nil => simp at h
  | cons q rest ih =>
    by_cases hq : q.1 = k
    · simp [dictGet, List.find?_cons, hq]
    · simp only [List.map_cons, List.mem_cons] at h
      rcases h with h | h
      · exact absurd h.symm hq
      · have := ih h
        simpa [dictGet, List.find?_cons, hq] using this

theorem find?_map_replace_self [DecidableEq α] (l : List (α × β)) (k : α) (v : β)
    (h : ∃ p ∈ l, p.1 = k) :
    (l.map (fun p => if p.1 = k then (k, v) else p)).find? (fun p => decide (p.1 = k)) =
      some (k, v) := by
  induction l with
  | nil => simp at h
  | cons q rest ih =>
    rw [List.map_cons]
    by_cases hq : q.1 = k
    · rw [if_pos hq]
      simp [List.find?_cons]
    · have h' : ∃ p ∈ rest, p.1 = k := by
        rcases h with ⟨p, hp, hpk⟩
        rcases List.mem_cons.mp hp with rfl | hp'
        · exact absurd hpk hq
        · exact ⟨p, hp', hpk⟩
      rw [if_neg hq]
      simp only [List.find?_cons, decide_eq_false hq]
      exact ih h'

theorem find?_map_replace_ne [DecidableEq α] (l : List (α × β)) (k k' : α) (v : β)
    (h : k' ≠ k) :
    (l.map (fun p => if p.1 = k then (k, v) else p)).find? (fun p => decide (p.1 = k')) =
      l.find? (fun p => decide (p.1 = k')) := by
  induction l with
  | nil => simp
  | cons q rest ih =>
    rw [List.map_cons, List.find?_cons, List.find?_cons]
    by_cases hq : q.1 = k
    · have hk' : ¬ (((k : α), v).1 = k') := fun hh => h hh.symm
      have hq' : ¬ (q.1 = k') := by rw [hq]; exact fun hh => h hh.symm
      rw [if_pos hq]
      simp only [decide_eq_false hk', decide_eq_false hq']
      exact ih
    · rw [if_neg hq]
      by_cases hqk' : q.1 = k'
      · simp only [decide_eq_true hqk']
      · simp only [decide_eq_false hqk']
        exact ih

theorem dictGet_dictSet_self [DecidableEq α] (l : List (α × β)) (k : α) (v : β) :
    dictGet (dictSet l k v) k = some v := by
  unfold dictSet
  split
  · next hany =>
    simp only [List.any_eq_true, decide_eq_true_eq] at hany
    unfold dictGet
    rw [find?_map_replace_self l k v hany]
    rfl
  · rw [dictGet_append]
    next hany =>
    cases h : dictGet l k with
    | none => simp [dictGet]
    | some w =>
      exfalso
      have := dictGet_mem h
      simp only [List.any_eq_true, decide_eq_true_eq, not_exists, not_and] at hany
      exact hany (k, w) this rfl

theorem dictGet_dictSet_ne [DecidableEq α] (l : List (α × β)) (k k' : α) (v : β)
    (h : k' ≠ k) : dictGet (dictSet l k v) k' = dictGet l k' := by
  unfold dictSet
  split
  · unfold dictGet
    rw [find?_map_replace_ne l k k' v h]
  · rw [dictGet_append]
    cases hg : dictGet l k' with
    | some w => simp
    | none =>
      simp only [Option.none_or]
      unfold dictGet
      simp [List.find?_cons, Ne.symm h]

/-! ### Random-choice lemmas -/

theorem rngChoice_mem {k : Nat} {l : List α} {a : α} (h : rngChoice k l = some a) : a ∈ l := by
  cases l with
  | nil => simp [rngChoice] at h
  | cons x xs =>
    simp only [rngChoice, Option.some.injEq] at h
    subst h
    have hlt : k % (xs.length + 1) < (x :: xs).length := by
      simp only [List.length_cons]
      exact Nat.mod_lt _ (Nat.succ_pos _)
    rw [List.getD_eq_getElem _ _ hlt]
    exact List.getElem_mem hlt

theorem pick_mem (k : Nat) (x : α) (xs : List α) :
    ((x :: xs).getD (k % (xs.length + 1)) x) ∈ x :: xs := by
  have hlt : k % (xs.length + 1) < (x :: xs).length := by
    simp only [List.length_cons]
    exact Nat.mod_lt _ (Nat.succ_pos _)
  rw [List.getD_eq_getElem _ _ hlt]
  exact List.getElem_mem hlt

/-! ### Race-mode reorder is a permutation -/

theorem foldl_erase_perm [DecidableEq α] :
    ∀ (m l : List α), m.Nodup → m ⊆ l → (m ++ m.foldl (fun acc z => acc.erase z) l).Perm l := by
  intro m
  induction m with
  | nil => intro l _ _; simp
  | cons z m' ih =>
    intro l hnd hsub
    simp only [List.nodup_cons] at hnd
    have hz : z ∈ l := hsub (List.mem_cons_self z m')
    have hsub' : m' ⊆ l.erase z := by
      intro y hy
      have hyl : y ∈ l := hsub (List.mem_cons_of_mem z hy)
      have hyz : y ≠ z := fun h => hnd.1 (h ▸ hy)
      exact (List.mem_erase_of_ne hyz).mpr hyl
    have hih := ih (l.erase z) hnd.2 hsub'
    have heq : (z :: m') ++ List.foldl (fun acc z => acc.erase z) l (z :: m') =
        z :: (m' ++ List.foldl (fun acc z => acc.erase z) (l.erase z) m') := by
      simp [List.foldl_cons]
    rw [heq]
    exact (hih.cons z).trans (List.perm_cons_erase hz).symm

theorem raceModeReorder_perm (l : List ZoneEntrance) (h : l.Nodup) :
    (raceModeReorder l).Perm l := by
  unfold raceModeReorder entrancesNotOnUniqueIslands
  exact foldl_erase_perm _ l (h.filter _) (fun y hy => List.mem_of_mem_filter hy)

/-! ### Chain-resolution lemmas -/

theorem get_all_step (fuel : Nat) (seen : List ZoneEntrance) (e : ZoneEntrance)
    (m : List (ZoneExit × ZoneEntrance)) :
    get_all_entrances_on_path_to_entrance (fuel + 1) seen e m =
      (if e.is_nested then
        if e ∈ seen then ChainRes.cycleErr
        else
          match get_dungeon_start_exit_leading_to_nested_entrance e with
          | none => ChainRes.catalogErr
          | some dx =>
            match lookupX2E m dx with
            | none => ChainRes.incomplete
            | some e' => get_all_entrances_on_path_to_entrance fuel (seen ++ [e]) e' m
      else ChainRes.complete (seen ++ [e])) := rfl

/-- Structure of a completed chain walk: the result extends `seen` by a
nonempty block `t` starting at the queried entrance; all of `t` except the
final element is nested, the final element is not nested, `t` has no
duplicates, and `t`'s elements are the query or values of the connection
map. -/
theorem chain_decomp :
    ∀ (fuel : Nat) (seen : List ZoneEntrance) (e : ZoneEntrance)
      (m : List (ZoneExit × ZoneEntrance)) (l : List ZoneEntrance),
      get_all_entrances_on_path_to_entrance fuel seen e m = .complete l →
      ∃ t, l = seen ++ t ∧ t ≠ [] ∧ t.head? = some e ∧
        (∀ y ∈ t, y = e ∨ ∃ dx, lookupX2E m dx = some y) ∧
        (∀ y ∈ t.dropLast, y.is_nested = true) ∧
        (∃ z, t.getLast? = some z ∧ z.is_nested = false) ∧
        t.Nodup ∧
        (∀ y ∈ t, y.is_nested = true → y ∉ seen) := by
  intro fuel
  induction fuel with
  | zero =>
    intro seen e m l h
    simp [get_all_entrances_on_path_to_entrance] at h
  | succ f ih =>
    intro seen e m l h
    rw [get_all_step] at h
    by_cases hn : e.is_nested = true
    · rw [if_pos hn] at h
      by_cases hmem : e ∈ seen
      · rw [if_pos hmem] at h; cases h
      · rw [if_neg hmem] at h
        cases how : get_dungeon_start_exit_leading_to_nested_entrance e with
        | none => simp only [how] at h; cases h
        | some dx =>
          cases hlk : lookupX2E m dx with
          | none => simp only [how, hlk] at h; cases h
          | some e' =>
            simp only [how, hlk] at h
            rcases ih (seen ++ [e]) e' m l h with
              ⟨t', hl, htne, hhd, hmemp, hdrop, hlast, hnd, hsafe⟩
            refine ⟨e :: t', ?_, by simp, by simp, ?_, ?_, ?_, ?_, ?_⟩
            · rw [hl]; simp
            · intro y hy
              rcases List.mem_cons.mp hy with rfl | hy'
              · exact Or.inl rfl
              · rcases hmemp y hy' with rfl | hdx
                · exact Or.inr ⟨dx, hlk⟩
                · exact Or.inr hdx
            · intro y hy
              cases t' with
              | nil => exact absurd rfl htne
              | cons a t'' =>
                rw [List.dropLast_cons₂] at hy
                rcases List.mem_cons.mp hy with rfl | hy'
                · exact hn
                · exact hdrop y hy'
            · rcases hlast with ⟨z, hz, hzn⟩
              refine ⟨z, ?_, hzn⟩
              cases t' with
              | nil => exact absurd rfl htne
              | cons a t'' => simpa using hz
            · have hent' : e ∉ t' := by
                intro hin
                have := hsafe e hin hn
                simp at this
              simp [List.nodup_cons, hent', hnd]
            · intro y hy hyn
              rcases List.mem_cons.mp hy with rfl | hy'
              · exact hmem
              · have := hsafe y hy' hyn
                intro hys
                exact this (List.mem_append_left _ hys)
    · rw [if_neg hn] at h
      cases h
      refine ⟨[e], rfl, by simp, by simp, by simp, by simp, ⟨e, by simp, by simpa using hn⟩,
        by simp, ?_⟩
      intro y hy hyn
      rcases List.mem_singleton.mp hy with rfl
      exact absurd hyn hn

/-- A completed walk is insensitive to the `seen` accumulator and to extra
fuel, as long as the new accumulator avoids the nested entrances of the walk
and the fuel covers the walk's length. -/
theorem chain_transfer :
    ∀ (fuel : Nat) (seen : List ZoneEntrance) (e : ZoneEntrance)
      (m : List (ZoneExit × ZoneEntrance)) (t : List ZoneEntrance),
      get_all_entrances_on_path_to_entrance fuel seen e m = .complete (seen ++ t) →
      t.Nodup →
      ∀ (fuel' : Nat) (seen' : List ZoneEntrance), t.length ≤ fuel' →
        (∀ y ∈ t, y.is_nested = true → y ∉ seen') →
        get_all_entrances_on_path_to_entrance fuel' seen' e m = .complete (seen' ++ t) := by
  intro fuel
  induction fuel with
  | zero =>
    intro seen e m t h
    simp [get_all_entrances_on_path_to_entrance] at h
  | succ f ih =>
    intro seen e m t h hnd fuel' seen' hfl hdisj
    rw [get_all_step] at h
    by_cases hn : e.is_nested = true
    · rw [if_pos hn] at h
      by_cases hmem : e ∈ seen
      · rw [if_pos hmem] at h; cases h
      · rw [if_neg hmem] at h
        cases how : get_dungeon_start_exit_leading_to_nested_entrance e with
        | none => simp only [how] at h; cases h
        | some dx =>
          cases hlk : lookupX2E m dx with
          | none => simp only [how, hlk] at h; cases h
          | some e2 =>
            simp only [how, hlk] at h
            rcases chain_decomp f (seen ++ [e]) e2 m (seen ++ t) h with
              ⟨t2, hl2, -, -, -, -, -, -, -⟩
            have ht : t = e :: t2 := by
              have : seen ++ t = seen ++ (e :: t2) := by
                rw [hl2]; simp
              exact List.append_cancel_left this
            subst ht
            have hrec : get_all_entrances_on_path_to_entrance f (seen ++ [e]) e2 m =
                .complete ((seen ++ [e]) ++ t2) := by
              rw [h]; rw [hl2]
            cases fuel' with
            | zero => simp at hfl
            | succ f2 =>
              rw [get_all_step, if_pos hn,
                if_neg (hdisj e (List.mem_cons_self e t2) hn)]
              simp only [how, hlk]
              have hnd2 : t2.Nodup := (List.nodup_cons.mp hnd).2
              have hent2 : e ∉ t2 := (List.nodup_cons.mp hnd).1
              have := ih (seen ++ [e]) e2 m t2 hrec hnd2 f2 (seen' ++ [e])
                (by simpa using hfl)
                (by
                  intro y hy hyn
                  have h1 : y ∉ seen' := hdisj y (List.mem_cons_of_mem e hy) hyn
                  have h2 : y ≠ e := fun hh => hent2 (hh ▸ hy)
                  simp [List.mem_append, h1, h2])
              rw [this]
              simp
    · rw [if_neg hn] at h
      injection h with h2
      have hte : t = [e] := (List.append_cancel_left h2).symm
      subst hte
      cases fuel' with
      | zero => simp at hfl
      | succ f2 => rw [get_all_step, if_neg hn]

/-- A completed walk survives any extension of the connection map that
preserves the lookups it made. -/
theorem chain_mono_map :
    ∀ (fuel : Nat) (seen : List ZoneEntrance) (e : ZoneEntrance)
      (m m' : List (ZoneExit × ZoneEntrance)),
      (∀ dx v, lookupX2E m dx = some v → lookupX2E m' dx = some v) →
      ∀ l, get_all_entrances_on_path_to_entrance fuel seen e m = .complete l →
        get_all_entrances_on_path_to_entrance fuel seen e m' = .complete l := by
  intro fuel
  induction fuel with
  | zero =>
    intro seen e m m' hpre l h
    simp [get_all_entrances_on_path_to_entrance] at h
  | succ f ih =>
    intro seen e m m' hpre l h
    rw [get_all_step] at h
    rw [get_all_step]
    by_cases hn : e.is_nested = true
    · rw [if_pos hn] at h ⊢
      by_cases hmem : e ∈ seen
      · rw [if_pos hmem] at h; cases h
      · rw [if_neg hmem] at h ⊢
        cases how : get_dungeon_start_exit_leading_to_nested_entrance e with
        | none => simp only [how] at h; cases h
        | some dx =>
          cases hlk : lookupX2E m dx with
          | none => simp only [how, hlk] at h; cases h
          | some e2 =>
            simp only [how, hlk] at h
            simp only [how, hpre dx e2 hlk]
            exact ih (seen ++ [e]) e2 m m' hpre l h
    · rw [if_neg hn] at h ⊢
      exact h

/-- When the walk reports `incomplete`, some nested entrance reachable along
the chain has an owning dungeon exit that is not connected yet. -/
theorem chain_incomplete_spec :
    ∀ (fuel : Nat) (seen : List ZoneEntrance) (e : ZoneEntrance)
      (m : List (ZoneExit × ZoneEntrance)),
      get_all_entrances_on_path_to_entrance fuel seen e m = .incomplete →
      ∃ y dx, (y = e ∨ ∃ dx0, lookupX2E m dx0 = some y) ∧ y.is_nested = true ∧
        get_dungeon_start_exit_leading_to_nested_entrance y = some dx ∧
        lookupX2E m dx = none := by
  intro fuel
  induction fuel with
  | zero =>
    intro seen e m h
    simp [get_all_entrances_on_path_to_entrance] at h
  | succ f ih =>
    intro seen e m h
    rw [get_all_step] at h
    by_cases hn : e.is_nested = true
    · rw [if_pos hn] at h
      by_cases hmem : e ∈ seen
      · rw [if_pos hmem] at h; cases h
      · rw [if_neg hmem] at h
        cases how : get_dungeon_start_exit_leading_to_nested_entrance e with
        | none => simp only [how] at h; cases h
        | some dx =>
          cases hlk : lookupX2E m dx with
          | none => exact ⟨e, dx, Or.inl rfl, hn, how, hlk⟩
          | some e2 =>
            simp only [how, hlk] at h
            rcases ih (seen ++ [e]) e2 m h with ⟨y, dy, hy, h2, h3, h4⟩
            refine ⟨y, dy, ?_, h2, h3, h4⟩
            rcases hy with rfl | hdx0
            · exact Or.inr ⟨dx, hlk⟩
            · exact Or.inr hdx0
    · rw [if_neg hn] at h
      cases h

/-- On catalog data (query and map values drawn from the registries) the walk
never runs out of fuel and never hits the catalog `assert`. -/
theorem chain_good :
    ∀ (fuel : Nat) (seen : List ZoneEntrance) (e : ZoneEntrance)
      (m : List (ZoneExit × ZoneEntrance)),
      (∀ p ∈ m, p.2 ∈ ALL_ENTRANCES) → e ∈ ALL_ENTRANCES →
      seen.Nodup → (∀ y ∈ seen, y ∈ BOSS_ENTRANCES) →
      BOSS_ENTRANCES.length + 1 ≤ fuel + seen.length →
      get_all_entrances_on_path_to_entrance fuel seen e m ≠ .fuelOut ∧
      get_all_entrances_on_path_to_entrance fuel seen e m ≠ .catalogErr := by
  intro fuel
  induction fuel with
  | zero =>
    intro seen e m hm he hnd hsub hfl
    exfalso
    have hle : seen.length ≤ BOSS_ENTRANCES.length :=
      (hnd.subperm (fun y hy => hsub y hy)).length_le
    omega
  | succ f ih =>
    intro seen e m hm he hnd hsub hfl
    rw [get_all_step]
    by_cases hn : e.is_nested = true
    · rw [if_pos hn]
      by_cases hmem : e ∈ seen
      · rw [if_pos hmem]; exact ⟨by simp, by simp⟩
      · rw [if_neg hmem]
        have heb : e ∈ BOSS_ENTRANCES := nested_mem_boss e he hn
        rcases boss_entrance_owner e heb with ⟨dx, how, -⟩
        cases hlk : lookupX2E m dx with
        | none => simp only [how, hlk]; exact ⟨by simp, by simp⟩
        | some e2 =>
          simp only [how, hlk]
          have he2 : e2 ∈ ALL_ENTRANCES := hm (dx, e2) (dictGet_mem hlk)
          refine ih (seen ++ [e]) e2 m hm he2 ?_ ?_ ?_
          · simp [List.nodup_append, hnd, hmem]
          · intro y hy
            rcases List.mem_append.mp hy with hy1 | hy2
            · exact hsub y hy1
            · rcases List.mem_singleton.mp hy2 with rfl
              exact heb
          · simp only [List.length_append, List.length_singleton]
            omega
    · rw [if_neg hn]
      exact ⟨by simp, by simp⟩

/-- For a catalog entrance and a connection map with catalog values, the
resolver either completes, reports an incomplete chain, or raises the fatal
cycle error. -/
theorem resolveChain_trichotomy (e : ZoneEntrance) (m : List (ZoneExit × ZoneEntrance))
    (hm : ∀ p ∈ m, p.2 ∈ ALL_ENTRANCES) (he : e ∈ ALL_ENTRANCES) :
    (∃ l, resolveChain e m = .complete l) ∨ resolveChain e m = .incomplete ∨
      resolveChain e m = .cycleErr := by
  have hg := chain_good chainFuel [] e m hm he (by simp) (by simp) (by simp [chainFuel])
  unfold resolveChain
  cases h : get_all_entrances_on_path_to_entrance chainFuel [] e m with
  | complete l => exact Or.inl ⟨l, rfl⟩
  | incomplete => exact Or.inr (Or.inl rfl)
  | cycleErr => exact Or.inr (Or.inr rfl)
  | catalogErr => exact absurd h hg.2
  | fuelOut => exact absurd h hg.1

/-- Prepend one nested step to a completed chain. -/
theorem chain_cons_complete (e e1 : ZoneEntrance) (dx : ZoneExit)
    (m : List (ZoneExit × ZoneEntrance)) (l1 : List ZoneEntrance)
    (hm : ∀ p ∈ m, p.2 ∈ ALL_ENTRANCES) (he : e ∈ ALL_ENTRANCES)
    (hn : e.is_nested = true)
    (how : get_dungeon_start_exit_leading_to_nested_entrance e = some dx)
    (hlk : lookupX2E m dx = some e1)
    (hc : resolveChain e1 m = .complete l1) (hne : e ∉ l1) :
    resolveChain e m = .complete (e :: l1) := by
  have hc' : get_all_entrances_on_path_to_entrance chainFuel [] e1 m = .complete ([] ++ l1) := by
    simpa using hc
  rcases chain_decomp chainFuel [] e1 m ([] ++ l1) hc' with
    ⟨t, hteq, htne, hthd, htmem, htdrop, htlast, htnd, -⟩
  have ht : l1 = t := by simpa using hteq
  subst ht
  have hlen : l1.length ≤ 5 := by
    have hdl_nd : l1.dropLast.Nodup := htnd.sublist (List.dropLast_sublist l1)
    have hdl_sub : ∀ y ∈ l1.dropLast, y ∈ BOSS_ENTRANCES := by
      intro y hy
      have hyn : y.is_nested = true := htdrop y hy
      have hyt : y ∈ l1 := List.dropLast_subset l1 hy
      have hyA : y ∈ ALL_ENTRANCES := by
        rcases htmem y hyt with hye | ⟨dx0, hdx0⟩
        · rw [hye]
          exact hm (dx, e1) (dictGet_mem hlk)
        · exact hm (dx0, y) (dictGet_mem hdx0)
      exact nested_mem_boss y hyA hyn
    have hedl : e ∉ l1.dropLast := fun hh => hne (List.dropLast_subset l1 hh)
    have heb : e ∈ BOSS_ENTRANCES := nested_mem_boss e he hn
    have hndall : (l1.dropLast ++ [e]).Nodup := by
      simp [List.nodup_append, hdl_nd, hedl]
    have hsuball : ∀ y ∈ l1.dropLast ++ [e], y ∈ BOSS_ENTRANCES := by
      intro y hy
      rcases List.mem_append.mp hy with hy1 | hy2
      · exact hdl_sub y hy1
      · rcases List.mem_singleton.mp hy2 with rfl
        exact heb
    have hle : (l1.dropLast ++ [e]).length ≤ BOSS_ENTRANCES.length :=
      (hndall.subperm (fun y hy => hsuball y hy)).length_le
    have h5 : BOSS_ENTRANCES.length = 5 := boss_entrances_length
    have hdll : l1.dropLast.length = l1.length - 1 := List.length_dropLast l1
    have htpos : 1 ≤ l1.length := by
      cases l1 with
      | nil => exact absurd rfl htne
      | cons a t2 => simp
    simp only [List.length_append, List.length_singleton] at hle
    omega
  show get_all_entrances_on_path_to_entrance chainFuel [] e m = .complete (e :: l1)
  rw [show chainFuel = 5 + 1 from rfl, get_all_step, if_pos hn,
    if_neg (by simp : e ∉ ([] : List ZoneEntrance))]
  simp only [how, hlk]
  have := chain_transfer chainFuel [] e1 m l1 hc' htnd 5 [e] hlen
    (by
      intro y hy hyn
      have : y ≠ e := fun hh => hne (hh ▸ hy)
      simp [this])
  simpa using this

/-! ### Candidate-set lemmas -/

theorem possibleStage1_subset (doing : Bool) (safety : Option ZoneEntrance)
    (exitNoReq : List String) (remaining : List ZoneExit) (e : ZoneEntrance) :
    ∀ x ∈ possibleStage1 doing safety exitNoReq remaining e, x ∈ remaining := by
  intro x hx
  unfold possibleStage1 at hx
  split at hx
  · exact List.mem_of_mem_filter hx
  · exact hx

theorem possibleStage2_subset (doing : Bool) (safety : Option ZoneEntrance)
    (exitNoReq : List String) (remaining : List ZoneExit) (e : ZoneEntrance) :
    ∀ x ∈ possibleStage2 doing safety exitNoReq remaining e, x ∈ remaining := by
  intro x hx
  unfold possibleStage2 at hx
  split at hx
  · exact List.mem_of_mem_filter hx
  · exact possibleStage1_subset doing safety exitNoReq remaining e x hx

theorem possible_subset_remaining (opts : EngineOptions) (doing : Bool)
    (safety : Option ZoneEntrance) (exitNoReq : List String)
    (e2x : List (ZoneEntrance × ZoneExit)) (remaining : List ZoneExit) (e : ZoneEntrance) :
    ∀ x ∈ possibleExitsFor opts doing safety exitNoReq e2x remaining e, x ∈ remaining := by
  intro x hx
  unfold possibleExitsFor at hx
  split at hx
  · exact possibleStage2_subset doing safety exitNoReq remaining e x (List.mem_of_mem_filter hx)
  · exact possibleStage2_subset doing safety exitNoReq remaining e x hx

/-- If a Boss-category exit made it into the candidates, no Dungeon-category
exit is left in the remaining pool: the batch-ordering rebuild (line 255)
strips boss exits, and the safety allow-list never names one, so the boss
exit must have come in through an unfiltered `remaining` whose dungeon scan
(line 253) failed. -/
theorem possible_boss_no_dungeon (opts : EngineOptions) (doing : Bool)
    (safety : Option ZoneEntrance)
    (e2x : List (ZoneEntrance × ZoneExit)) (remaining : List ZoneExit) (e : ZoneEntrance)
    {x : ZoneExit}
    (hx : x ∈ possibleExitsFor opts doing safety (exitNamesNoReq opts) e2x remaining e)
    (hb : x ∈ BOSS_EXITS) : ∀ y ∈ remaining, y ∉ DUNGEON_EXITS := by
  unfold possibleExitsFor at hx
  have hx2 : x ∈ possibleStage2 doing safety (exitNamesNoReq opts) remaining e := by
    split at hx
    · exact List.mem_of_mem_filter hx
    · exact hx
  unfold possibleStage2 at hx2
  split at hx2
  · exfalso
    have hmf := List.mem_filter.mp hx2
    simp only [decide_eq_true_eq] at hmf
    exact hmf.2 hb
  · next hcond =>
    simp only [List.any_eq_true, decide_eq_true_eq, not_exists, not_and] at hcond
    unfold possibleStage1 at hx2 hcond
    split at hx2
    · exfalso
      have hmf := List.mem_filter.mp hx2
      have hname : x.unique_name ∈ exitNamesNoReq opts := by simpa using hmf.2
      exact boss_unique_name_not_noreq x hb (exitNamesNoReq_subset opts _ hname)
    · intro y hy
      next hs =>
      rw [if_neg hs] at hcond
      exact hcond y hy

/-- The race-mode exclusion: once some placed entrance with the same
`island_name` value is connected to a Dungeon-category exit, neither Dungeon
nor Boss exits can be offered for the current entrance (lines 274-286). -/
theorem possible_race_excludes (opts : EngineOptions) (doing : Bool)
    (safety : Option ZoneEntrance) (exitNoReq : List String)
    (e2x : List (ZoneEntrance × ZoneExit)) (remaining : List ZoneExit) (e : ZoneEntrance)
    (hrace : opts.race_mode = true) {p : ZoneEntrance × ZoneExit}
    (hp : p ∈ e2x) (hisl : p.1.island_name = e.island_name) (hpd : p.2 ∈ DUNGEON_EXITS) :
    ∀ x ∈ possibleExitsFor opts doing safety exitNoReq e2x remaining e,
      x ∉ DUNGEON_EXITS ∧ x ∉ BOSS_EXITS := by
  intro x hx
  unfold possibleExitsFor at hx
  rw [if_pos] at hx
  · have hmf := List.mem_filter.mp hx
    simp only [decide_eq_true_eq, List.mem_append, not_or] at hmf
    exact hmf.2
  · rw [hrace]
    simp only [Bool.true_and, List.any_eq_true, Bool.and_eq_true, decide_eq_true_eq]
    exact ⟨p, hp, hisl, hpd⟩

/-! ### The main-loop invariant -/

/-- Invariant of `assignLoop`: placed keys plus the pending queue permute the
relevant entrances, placed values plus the remaining pool permute the
relevant exits, the two direction dicts mirror each other, every placed
entrance resolves completely, a placed boss exit means no dungeon exit
remains, placements never put a dungeon exit after a boss exit, and in race
mode no two placements with equal `island_name` both carry dungeon exits. -/
structure LoopInv (opts : EngineOptions) (d b c : Bool) (st : LoopSt) : Prop where
  permE : ((st.e2x.map Prod.fst) ++ st.pending).Perm (relevantEntrancesFor d b c)
  permX : ((st.e2x.map Prod.snd) ++ st.remaining).Perm (relevantExitsFor d b c)
  mirror : st.x2e = st.e2x.map (fun p => (p.2, p.1))
  chains : ∀ p ∈ st.e2x, ∃ l, resolveChain p.1 st.x2e = .complete l
  bossRem : (∃ p ∈ st.e2x, p.2 ∈ BOSS_EXITS) → ∀ x ∈ st.remaining, x ∉ DUNGEON_EXITS
  bossOrd : st.e2x.Pairwise (fun p q => p.2 ∈ BOSS_EXITS → q.2 ∉ DUNGEON_EXITS)
  racePair : opts.race_mode = true →
    st.e2x.Pairwise (fun p q => p.1.island_name = q.1.island_name →
      ¬(p.2 ∈ DUNGEON_EXITS ∧ q.2 ∈ DUNGEON_EXITS))

theorem LoopInv.sides_nodup {opts : EngineOptions} {d b c : Bool} {st : LoopSt}
    (h : LoopInv opts d b c st) :
    ((st.e2x.map Prod.fst) ++ st.pending).Nodup ∧
    ((st.e2x.map Prod.snd) ++ st.remaining).Nodup :=
  ⟨h.permE.nodup_iff.mpr (relevantEntrancesFor_nodup d b c),
   h.permX.nodup_iff.mpr (relevantExitsFor_nodup d b c)⟩

theorem LoopInv.x2e_values {opts : EngineOptions} {d b c : Bool} {st : LoopSt}
    (h : LoopInv opts d b c st) : ∀ p ∈ st.x2e, p.2 ∈ ALL_ENTRANCES := by
  intro p hp
  rw [h.mirror] at hp
  rcases List.mem_map.mp hp with ⟨q, hq, hqe⟩
  have : q.1 ∈ (st.e2x.map Prod.fst) ++ st.pending :=
    List.mem_append_left _ (List.mem_map.mpr ⟨q, hq, rfl⟩)
  have := h.permE.subset this
  rw [← hqe]
  exact relevantEntrancesFor_subset d b c q.1 this

theorem LoopInv.placed_mem_ALL {opts : EngineOptions} {d b c : Bool} {st : LoopSt}
    (h : LoopInv opts d b c st) : ∀ p ∈ st.e2x, p.1 ∈ ALL_ENTRANCES := by
  intro p hp
  have : p.1 ∈ (st.e2x.map Prod.fst) ++ st.pending :=
    List.mem_append_left _ (List.mem_map.mpr ⟨p, hp, rfl⟩)
  exact relevantEntrancesFor_subset d b c p.1 (h.permE.subset this)

theorem LoopInv.pending_mem_ALL {opts : EngineOptions} {d b c : Bool} {st : LoopSt}
    (h : LoopInv opts d b c st) : ∀ e ∈ st.pending, e ∈ ALL_ENTRANCES := by
  intro e he
  exact relevantEntrancesFor_subset d b c e (h.permE.subset (List.mem_append_right _ he))

/-- Deferring the head entrance (line 245) keeps the invariant. -/
theorem loopInv_defer {opts : EngineOptions} {d b c : Bool} {st : LoopSt}
    {e : ZoneEntrance} {rest : List ZoneEntrance}
    (h : LoopInv opts d b c st) (hp : st.pending = e :: rest) :
    LoopInv opts d b c { st with pending := rest ++ [e] } := by
  refine ⟨?_, h.permX, h.mirror, h.chains, h.bossRem, h.bossOrd, h.racePair⟩
  have h1 : (rest ++ [e]).Perm (e :: rest) := List.perm_append_singleton e rest
  have h2 := h.permE
  rw [hp] at h2
  exact (h1.append_left (st.e2x.map Prod.fst)).trans h2

/-- Placing the head entrance on a chosen candidate exit (lines 290-295)
keeps the invariant. -/
theorem loopInv_place {opts : EngineOptions} {d b c : Bool} {st : LoopSt}
    {doing : Bool} {safety : Option ZoneEntrance}
    {e : ZoneEntrance} {chosen : ZoneExit} {rest : List ZoneEntrance}
    (h : LoopInv opts d b c st) (hp : st.pending = e :: rest)
    (hres : ∃ w, resolveChain e st.x2e = .complete w)
    (hchosen : chosen ∈ possibleExitsFor opts doing safety (exitNamesNoReq opts)
      st.e2x st.remaining e) :
    LoopInv opts d b c ⟨rest, st.remaining.erase chosen, dictSet st.e2x e chosen,
      dictSet st.x2e chosen e, dictSet st.conns e.entrance_name chosen.unique_name,
      st.idx + 1⟩ := by
  have hnodE := h.sides_nodup.1
  have hnodX := h.sides_nodup.2
  rw [hp] at hnodE
  have hcR : chosen ∈ st.remaining :=
    possible_subset_remaining opts doing safety (exitNamesNoReq opts) st.e2x st.remaining e
      chosen hchosen
  have heK : ∀ p ∈ st.e2x, p.1 ≠ e := by
    intro p hpp hpe
    exact (List.nodup_append.mp hnodE).2.2 (List.mem_map.mpr ⟨p, hpp, hpe⟩)
      (List.mem_cons_self e rest)
  have hcSnd : chosen ∉ st.e2x.map Prod.snd := by
    intro hmem
    exact (List.nodup_append.mp hnodX).2.2 hmem hcR
  have hcK : ∀ p ∈ st.x2e, p.1 ≠ chosen := by
    intro p hpp hpe
    apply hcSnd
    rw [h.mirror] at hpp
    rcases List.mem_map.mp hpp with ⟨q, hq, hqe⟩
    refine List.mem_map.mpr ⟨q, hq, ?_⟩
    rw [← hqe] at hpe
    exact hpe
  have hsetE : dictSet st.e2x e chosen = st.e2x ++ [(e, chosen)] := dictSet_fresh _ _ _ heK
  have hsetX : dictSet st.x2e chosen e = st.x2e ++ [(chosen, e)] := dictSet_fresh _ _ _ hcK
  have hpres : ∀ dx v, lookupX2E st.x2e dx = some v →
      lookupX2E (st.x2e ++ [(chosen, e)]) dx = some v := by
    intro dx v hv
    unfold lookupX2E at hv ⊢
    rw [dictGet_append, hv]
    rfl
  refine ⟨?_, ?_, ?_, ?_, ?_, ?_, ?_⟩
  · show ((dictSet st.e2x e chosen).map Prod.fst ++ rest).Perm _
    rw [hsetE]
    have heq : (st.e2x ++ [(e, chosen)]).map Prod.fst ++ rest =
        (st.e2x.map Prod.fst) ++ (e :: rest) := by simp
    rw [heq]
    have h2 := h.permE
    rw [hp] at h2
    exact h2
  · show ((dictSet st.e2x e chosen).map Prod.snd ++ st.remaining.erase chosen).Perm _
    rw [hsetE]
    have heq : (st.e2x ++ [(e, chosen)]).map Prod.snd ++ (st.remaining.erase chosen) =
        (st.e2x.map Prod.snd) ++ (chosen :: st.remaining.erase chosen) := by simp
    rw [heq]
    exact (((List.perm_cons_erase hcR).symm).append_left _).trans h.permX
  · show dictSet st.x2e chosen e = _
    rw [hsetE, hsetX, h.mirror]
    simp
  · intro p hpp
    rw [hsetE] at hpp
    show ∃ l, resolveChain p.1 (dictSet st.x2e chosen e) = .complete l
    rw [hsetX]
    rcases List.mem_append.mp hpp with hold | hnew
    · rcases h.chains p hold with ⟨l, hl⟩
      exact ⟨l, chain_mono_map chainFuel [] p.1 st.x2e _ hpres l hl⟩
    · rcases List.mem_singleton.mp hnew with rfl
      rcases hres with ⟨w, hw⟩
      exact ⟨w, chain_mono_map chainFuel [] e st.x2e _ hpres w hw⟩
  · intro hex x hx
    have hxR : x ∈ st.remaining := List.erase_subset _ _ hx
    rcases hex with ⟨p, hpp, hpb⟩
    rw [hsetE] at hpp
    rcases List.mem_append.mp hpp with hold | hnew
    · exact h.bossRem ⟨p, hold, hpb⟩ x hxR
    · rcases List.mem_singleton.mp hnew with rfl
      exact possible_boss_no_dungeon opts doing safety st.e2x st.remaining e hchosen hpb x hxR
  · show ((dictSet st.e2x e chosen).Pairwise _)
    rw [hsetE, List.pairwise_append]
    refine ⟨h.bossOrd, by simp, ?_⟩
    intro p hpp q hq
    rcases List.mem_singleton.mp hq with rfl
    intro hpb
    exact h.bossRem ⟨p, hpp, hpb⟩ chosen hcR
  · intro hrace
    show ((dictSet st.e2x e chosen).Pairwise _)
    rw [hsetE, List.pairwise_append]
    refine ⟨h.racePair hrace, by simp, ?_⟩
    intro p hpp q hq
    rcases List.mem_singleton.mp hq with rfl
    rintro hisl ⟨hpd, hqd⟩
    exact (possible_race_excludes opts doing safety (exitNamesNoReq opts) st.e2x st.remaining e
      hrace hpp hisl hpd chosen hchosen).1 hqd

/-- Running the loop to success preserves the invariant and exhausts the
pending queue. -/
theorem assignLoop_ok_inv {opts : EngineOptions} {d b c : Bool} {doing : Bool}
    {safety : Option ZoneEntrance} {stream : Nat → Nat} :
    ∀ (fuel : Nat) (st st' : LoopSt), LoopInv opts d b c st →
      assignLoop opts doing safety (exitNamesNoReq opts) stream fuel st = .ok st' →
      LoopInv opts d b c st' ∧ st'.pending = [] := by
  intro fuel
  induction fuel with
  | zero =>
    intro st st' h hrun
    simp [assignLoop] at hrun
  | succ f ih =>
    intro st st' h hrun
    rw [assignLoop] at hrun
    cases hp : st.pending with
    | nil =>
      simp only [hp] at hrun
      injection hrun with hrun
      subst hrun
      exact ⟨h, hp⟩
    | cons e rest =>
      simp only [hp] at hrun
      cases hres : resolveChain e st.x2e with
      | incomplete =>
        simp only [hres] at hrun
        exact ih _ _ (loopInv_defer h hp) hrun
      | complete w =>
        simp only [hres] at hrun
        cases hposs : possibleExitsFor opts doing safety (exitNamesNoReq opts)
            st.e2x st.remaining e with
        | nil => simp only [hposs] at hrun; cases hrun
        | cons x xs =>
          simp only [hposs] at hrun
          have hchm : ((x :: xs).getD (stream st.idx % (xs.length + 1)) x) ∈
              possibleExitsFor opts doing safety (exitNamesNoReq opts)
                st.e2x st.remaining e := by
            rw [hposs]
            exact pick_mem (stream st.idx) x xs
          exact ih _ _ (loopInv_place h hp ⟨w, hres⟩ hchm) hrun
      | cycleErr => simp only [hres] at hrun; cases hrun
      | catalogErr => simp only [hres] at hrun; cases hrun
      | fuelOut => simp only [hres] at hrun; cases hrun

/-- The loop starts from a state satisfying the invariant whenever the
initial queue permutes the relevant entrances. -/
theorem loopInv_init (opts : EngineOptions) (d b c : Bool) (pending0 : List ZoneEntrance)
    (hperm : pending0.Perm (relevantEntrancesFor d b c)) (conns0 : List (String × String))
    (idx0 : Nat) :
    LoopInv opts d b c ⟨pending0, relevantExitsFor d b c, [], [], conns0, idx0⟩ := by
  refine ⟨by simpa using hperm, by simp, rfl, by simp, ?_, by simp, by simp⟩
  rintro ⟨p, hp, -⟩
  simp at hp

/-! ### Termination of the assignment loop -/

/-- In every invariant state with a nonempty queue (and bosses only selected
together with dungeons), some pending entrance resolves completely: either a
non-nested entrance is pending, or every pending entrance is a boss entrance,
in which case all dungeon exits are already placed and any boss entrance
resolves through them. -/
theorem exists_placeable {opts : EngineOptions} {d b c : Bool} {st : LoopSt}
    (h : LoopInv opts d b c st) (hbd : b = true → d = true) (hne : st.pending ≠ []) :
    ∃ eP, eP ∈ st.pending ∧ ∃ w, resolveChain eP st.x2e = .complete w := by
  by_cases hall : ∀ e ∈ st.pending, e.is_nested = true
  · -- every pending entrance is nested, hence a boss entrance
    have hboss : ∀ e ∈ st.pending, e ∈ BOSS_ENTRANCES := fun e he =>
      nested_mem_boss e (h.pending_mem_ALL e he) (hall e he)
    obtain ⟨e0, he0⟩ : ∃ e0, e0 ∈ st.pending := by
      cases hp : st.pending with
      | nil => exact absurd hp hne
      | cons a t => exact ⟨a, hp ▸ List.mem_cons_self a t⟩
    have hb : b = true := by
      by_contra hbf
      have hb0 : b = false := by cases b with
        | false => rfl
        | true => exact absurd rfl hbf
      subst hb0
      exact boss_not_relevant_of_not_b d c e0 (hboss e0 he0)
        (h.permE.subset (List.mem_append_right _ he0))
    have hd : d = true := hbd hb
    subst hb; subst hd
    -- no boss exit has been consumed yet, else nothing at all would remain
    -- for the ≥ 5 pending boss entrances while every dungeon exit remains
    have hnoboss : ∀ p ∈ st.e2x, p.2 ∉ BOSS_EXITS ∨
        (∀ dx ∈ DUNGEON_EXITS, dx ∈ st.e2x.map Prod.snd) := by
      intro p hp
      by_cases hdxall : ∀ dx ∈ DUNGEON_EXITS, dx ∈ st.e2x.map Prod.snd
      · exact Or.inr hdxall
      · exact Or.inl (fun hpb => by
          push_neg at hdxall
          rcases hdxall with ⟨dx, hdxD, hdxn⟩
          have hdxrel : dx ∈ relevantExitsFor true true c :=
            dungeon_exits_subset_relevant true c dx hdxD
          have : dx ∈ (st.e2x.map Prod.snd) ++ st.remaining := h.permX.mem_iff.mpr hdxrel
          rcases List.mem_append.mp this with hmm | hrem
          · exact hdxn hmm
          · exact h.bossRem ⟨p, hp, hpb⟩ dx hrem hdxD)
    have hdxall : ∀ dx ∈ DUNGEON_EXITS, dx ∈ st.e2x.map Prod.snd := by
      by_contra hno
      push_neg at hno
      rcases hno with ⟨dx, hdxD, hdxn⟩
      -- then no boss exit is placed, so every boss exit and dx remain
      have hnb : ∀ p ∈ st.e2x, p.2 ∉ BOSS_EXITS := by
        intro p hp
        rcases hnoboss p hp with h1 | h1
        · exact h1
        · exact absurd (h1 dx hdxD) hdxn
      have hdxrem : dx ∈ st.remaining := by
        have hdxrel : dx ∈ relevantExitsFor true true c :=
          dungeon_exits_subset_relevant true c dx hdxD
        rcases List.mem_append.mp (h.permX.mem_iff.mpr hdxrel) with hmm | hrem
        · exact absurd hmm hdxn
        · exact hrem
      have hbrem : ∀ bx ∈ BOSS_EXITS, bx ∈ st.remaining := by
        intro bx hbx
        have hbrel : bx ∈ relevantExitsFor true true c :=
          boss_exits_subset_relevant true c bx hbx
        rcases List.mem_append.mp (h.permX.mem_iff.mpr hbrel) with hmm | hrem
        · exfalso
          rcases List.mem_map.mp hmm with ⟨q, hq, hqe⟩
          exact hnb q hq (hqe ▸ hbx)
        · exact hrem
      -- six distinct exits would remain, but |remaining| = |pending| ≤ 5
      have hsub6 : ∀ y ∈ dx :: BOSS_EXITS, y ∈ st.remaining := by
        intro y hy
        rcases List.mem_cons.mp hy with rfl | hy2
        · exact hdxrem
        · exact hbrem y hy2
      have hnd6 : (dx :: BOSS_EXITS).Nodup := by
        rw [List.nodup_cons]
        exact ⟨dungeon_exit_not_boss dx hdxD, boss_exits_nodup⟩
      have h6 : (dx :: BOSS_EXITS).length ≤ st.remaining.length :=
        (hnd6.subperm (fun y hy => hsub6 y hy)).length_le
      have hpend_nd : st.pending.Nodup := (List.nodup_append.mp h.sides_nodup.1).2.1
      have hpend5 : st.pending.length ≤ BOSS_ENTRANCES.length :=
        (hpend_nd.subperm (fun y hy => hboss y hy)).length_le
      have hlenE := h.permE.length_eq
      have hlenX := h.permX.length_eq
      have hlenrel := relevant_length_eq true true c
      simp only [List.length_append, List.length_map] at hlenE hlenX
      have hbl : BOSS_ENTRANCES.length = 5 := boss_entrances_length
      have hbxl : BOSS_EXITS.length = 5 := by decide
      simp only [List.length_cons, hbxl] at h6
      omega
    -- resolve the head boss entrance through its placed owning dungeon exit
    obtain ⟨e0, he0⟩ : ∃ e0, e0 ∈ st.pending := by
      cases hp : st.pending with
      | nil => exact absurd hp hne
      | cons a t => exact ⟨a, hp ▸ List.mem_cons_self a t⟩
    have he0B : e0 ∈ BOSS_ENTRANCES := hboss e0 he0
    rcases boss_entrance_owner e0 he0B with ⟨dx, how, hdxD⟩
    have hdxm : dx ∈ st.e2x.map Prod.snd := hdxall dx hdxD
    have hdxm' : dx ∈ st.x2e.map Prod.fst := by
      rw [h.mirror]
      rcases List.mem_map.mp hdxm with ⟨q, hq, hqe⟩
      exact List.mem_map.mpr ⟨(q.2, q.1), List.mem_map.mpr ⟨q, hq, rfl⟩, hqe⟩
    have hlks : (lookupX2E st.x2e dx).isSome = true := dictGet_isSome_of_mem_keys hdxm'
    cases hlk : lookupX2E st.x2e dx with
    | none => rw [hlk] at hlks; cases hlks
    | some e1 =>
      have he1pair : (e1, dx) ∈ st.e2x := by
        have := dictGet_mem hlk
        rw [h.mirror] at this
        rcases List.mem_map.mp this with ⟨q, hq, hqe⟩
        have hq1 : q.2 = dx := congrArg Prod.fst hqe
        have hq2 : q.1 = e1 := congrArg Prod.snd hqe
        have : q = (e1, dx) := Prod.ext hq2 hq1
        exact this ▸ hq
      rcases h.chains (e1, dx) he1pair with ⟨l1, hc⟩
      have he0nl : e0 ∉ l1 := by
        intro hin
        have hc' : get_all_entrances_on_path_to_entrance chainFuel [] e1 st.x2e =
            .complete ([] ++ l1) := by simpa using hc
        rcases chain_decomp chainFuel [] e1 st.x2e ([] ++ l1) hc' with
          ⟨t, hteq, -, -, htmem, -, -, -, -⟩
        have ht : l1 = t := by simpa using hteq
        subst ht
        have hdisj := (List.nodup_append.mp h.sides_nodup.1).2.2
        rcases htmem e0 hin with he01 | ⟨dx0, hdx0⟩
        · -- e0 would already be placed as the entrance of dx
          apply hdisj _ he0
          rw [he01]
          exact List.mem_map.mpr ⟨(e1, dx), he1pair, rfl⟩
        · apply hdisj _ he0
          have := dictGet_mem hdx0
          rw [h.mirror] at this
          rcases List.mem_map.mp this with ⟨q, hq, hqe⟩
          have hq2 : q.1 = e0 := congrArg Prod.snd hqe
          exact List.mem_map.mpr ⟨q, hq, hq2⟩
      refine ⟨e0, he0, e0 :: l1, ?_⟩
      exact chain_cons_complete e0 e1 dx st.x2e l1 h.x2e_values
        (h.pending_mem_ALL e0 he0) (hall e0 he0) how hlk hc he0nl
  · -- some pending entrance is not nested: it resolves immediately
    push_neg at hall
    rcases hall with ⟨eP, hePm, hePn⟩
    have hePn' : eP.is_nested = false := by
      cases hn : eP.is_nested with
      | false => rfl
      | true => exact absurd hn hePn
    refine ⟨eP, hePm, [eP], ?_⟩
    show get_all_entrances_on_path_to_entrance chainFuel [] eP st.x2e = .complete [eP]
    rw [show chainFuel = 5 + 1 from rfl, get_all_step, if_neg (by simp [hePn'])]
    simp

/-- Fuel bound below which the assignment loop cannot exhaust its fuel. -/
def loopFuel (n : Nat) : Nat := n * (n + 1) + n + 1

/-- Fuel-exhaustion is impossible: deferring moves the first placeable
entrance one position forward, and each placement shrinks the queue, so the
quadratic budget `pending.length * (K + 1) + (first placeable position) + 1`
always covers the remaining iterations. -/
theorem loop_term_aux {opts : EngineOptions} {d b c : Bool} {doing : Bool}
    {safety : Option ZoneEntrance} {stream : Nat → Nat}
    (hbd : b = true → d = true) :
    ∀ (fuel : Nat) (st : LoopSt) (K : Nat), LoopInv opts d b c st →
      st.pending.length ≤ K →
      ((st.pending = [] ∧ 1 ≤ fuel) ∨
        (∃ pre eP post, st.pending = pre ++ eP :: post ∧
          (∃ w, resolveChain eP st.x2e = .complete w) ∧
          st.pending.length * (K + 1) + pre.length + 1 ≤ fuel)) →
      assignLoop opts doing safety (exitNamesNoReq opts) stream fuel st ≠
        .error .outOfFuel := by
  intro fuel
  induction fuel with
  | zero =>
    intro st K h hK hplc
    rcases hplc with ⟨-, habs⟩ | ⟨pre, eP, post, -, -, habs⟩ <;> omega
  | succ f ih =>
    intro st K h hK hplc
    rw [assignLoop]
    cases hp : st.pending with
    | nil => simp [hp]
    | cons e rest =>
      have hKr : rest.length + 1 ≤ K := by
        rw [hp] at hK
        simpa using hK
      cases hres : resolveChain e st.x2e with
      | incomplete =>
        simp only [hp, hres]
        rcases hplc with ⟨hnil, -⟩ | ⟨pre, eP, post, hdec, hw, hbound⟩
        · rw [hp] at hnil; cases hnil
        · rw [hp] at hdec hbound
          cases pre with
          | nil =>
            simp only [List.nil_append, List.cons.injEq] at hdec
            rcases hw with ⟨w, hw⟩
            rw [hdec.1] at hres
            rw [hres] at hw
            cases hw
          | cons e2 pre2 =>
            simp only [List.cons_append, List.cons.injEq] at hdec
            obtain ⟨he2, hrest⟩ := hdec
            apply ih _ K (loopInv_defer h hp)
            · show (rest ++ [e]).length ≤ K
              simp only [List.length_append, List.length_cons, List.length_nil]
              omega
            · right
              refine ⟨pre2, eP, post ++ [e], ?_, hw, ?_⟩
              · show rest ++ [e] = pre2 ++ eP :: (post ++ [e])
                rw [hrest]
                simp
              · show (rest ++ [e]).length * (K + 1) + pre2.length + 1 ≤ f
                have hlen : (rest ++ [e]).length = (e :: rest).length := by simp
                rw [hlen]
                simp only [List.length_cons] at hbound ⊢
                omega
      | complete w =>
        simp only [hp, hres]
        cases hposs : possibleExitsFor opts doing safety (exitNamesNoReq opts)
            st.e2x st.remaining e with
        | nil => simp [hposs]
        | cons x xs =>
          simp only [hposs]
          have hchm : ((x :: xs).getD (stream st.idx % (xs.length + 1)) x) ∈
              possibleExitsFor opts doing safety (exitNamesNoReq opts)
                st.e2x st.remaining e := by
            rw [hposs]
            exact pick_mem (stream st.idx) x xs
          set ch : ZoneExit := (x :: xs).getD (stream st.idx % (xs.length + 1)) x with hch
          have h2 := loopInv_place h hp ⟨w, hres⟩ hchm
          apply ih _ K h2
          · show rest.length ≤ K
            omega
          · have hmul : (rest.length + 1) * (K + 1) = rest.length * (K + 1) + (K + 1) := by
              ring
            have hbnd : (rest.length + 1) * (K + 1) ≤ f := by
              rcases hplc with ⟨hnil, -⟩ | ⟨pre, eP, post, -, -, hbound⟩
              · rw [hp] at hnil; cases hnil
              · rw [hp] at hbound
                simp only [List.length_cons] at hbound
                omega
            by_cases hrest : rest = []
            · left
              refine ⟨hrest, ?_⟩
              rw [hrest] at hbnd
              simp only [List.length_nil] at hbnd
              omega
            · right
              have hne2 : (⟨rest, st.remaining.erase ch, dictSet st.e2x e ch,
                  dictSet st.x2e ch e, dictSet st.conns e.entrance_name ch.unique_name,
                  st.idx + 1⟩ : LoopSt).pending ≠ [] := hrest
              rcases exists_placeable h2 hbd hne2 with ⟨eP2, heP2, hw2⟩
              rcases List.append_of_mem heP2 with ⟨pre2, post2, hdec2⟩
              refine ⟨pre2, eP2, post2, hdec2, hw2, ?_⟩
              show rest.length * (K + 1) + pre2.length + 1 ≤ f
              have hpre2 : pre2.length + 1 ≤ rest.length := by
                have hlen : rest.length = pre2.length + 1 + post2.length := by
                  show (⟨rest, st.remaining.erase ch, dictSet st.e2x e ch,
                      dictSet st.x2e ch e, dictSet st.conns e.entrance_name ch.unique_name,
                      st.idx + 1⟩ : LoopSt).pending.length = pre2.length + 1 + post2.length
                  rw [hdec2]
                  simp only [List.length_append, List.length_cons]
                  omega
                omega
              omega
      | cycleErr => simp [hp, hres]
      | catalogErr => simp [hp, hres]
      | fuelOut => simp [hp, hres]
/-! ### Final-phase lemmas -/

theorem islandLocPhase_full (x2eFull : List (ZoneExit × ZoneEntrance)) (dry : Bool) :
    ∀ (items : List (ZoneExit × ZoneEntrance)) (locs : List (String × Option String))
      (muts : List Mutation),
      (∀ p ∈ items, ∃ l z, resolveChain p.2 x2eFull = .complete l ∧ l.getLast? = some z) →
      ∃ locs2 muts2, islandLocPhase x2eFull dry items locs muts = .ok (locs2, muts ++ muts2) ∧
        (dry = true → muts2 = []) := by
  intro items
  induction items with
  | nil =>
    intro locs muts hch
    exact ⟨locs, [], by simp [islandLocPhase], fun _ => rfl⟩
  | cons p rest ih =>
    intro locs muts hch
    obtain ⟨x, e⟩ := p
    rcases hch (x, e) (List.mem_cons_self _ _) with ⟨l, z, hc, hz⟩
    rcases ih (dictSet locs x.zone_name z.island_name)
        (muts ++ (if dry then [] else [.entranceUpdate e x z]))
        (fun q hq => hch q (List.mem_cons_of_mem _ hq)) with ⟨locs2, muts2, hrec, hdry⟩
    refine ⟨locs2, (if dry then [] else [.entranceUpdate e x z]) ++ muts2, ?_, ?_⟩
    · rw [islandLocPhase]
      simp only [hc, hz]
      rw [hrec]
      simp
    · intro hd
      rw [hdry hd]
      simp [hd]

theorem islandLocPhase_preserve (x2eFull : List (ZoneExit × ZoneEntrance)) (dry : Bool) :
    ∀ (items : List (ZoneExit × ZoneEntrance)) (locs : List (String × Option String))
      (muts : List Mutation) (locs2 : List (String × Option String)) (muts2 : List Mutation),
      islandLocPhase x2eFull dry items locs muts = .ok (locs2, muts2) →
      ∀ k, (∀ p ∈ items, p.1.zone_name ≠ k) → dictGet locs2 k = dictGet locs k := by
  intro items
  induction items with
  | nil =>
    intro locs muts locs2 muts2 hrun k hk
    rw [islandLocPhase] at hrun
    injection hrun with hrun
    rw [(Prod.mk.injEq _ _ _ _).mp hrun |>.1]
  | cons p rest ih =>
    intro locs muts locs2 muts2 hrun k hk
    obtain ⟨x, e⟩ := p
    rw [islandLocPhase] at hrun
    cases hc : resolveChain e x2eFull with
    | complete l =>
      simp only [hc] at hrun
      cases hz : l.getLast? with
      | none => simp only [hz] at hrun; cases hrun
      | some z =>
        simp only [hz] at hrun
        have := ih _ _ _ _ hrun k (fun q hq => hk q (List.mem_cons_of_mem _ hq))
        rw [this]
        exact dictGet_dictSet_ne locs x.zone_name k z.island_name
          (fun hh => hk (x, e) (List.mem_cons_self _ _) hh.symm)
    | incomplete => simp only [hc] at hrun; cases hrun
    | cycleErr => simp only [hc] at hrun; cases hrun
    | catalogErr => simp only [hc] at hrun; cases hrun
    | fuelOut => simp only [hc] at hrun; cases hrun

theorem islandLocPhase_lookup (x2eFull : List (ZoneExit × ZoneEntrance)) (dry : Bool) :
    ∀ (items : List (ZoneExit × ZoneEntrance)) (locs : List (String × Option String))
      (muts : List Mutation) (locs2 : List (String × Option String)) (muts2 : List Mutation),
      islandLocPhase x2eFull dry items locs muts = .ok (locs2, muts2) →
      (items.map (fun p => p.1.zone_name)).Nodup →
      ∀ x e, (x, e) ∈ items →
        ∃ l z, resolveChain e x2eFull = .complete l ∧ l.getLast? = some z ∧
          dictGet locs2 x.zone_name = some z.island_name := by
  intro items
  induction items with
  | nil =>
    intro locs muts locs2 muts2 hrun hnd x e hm
    simp at hm
  | cons p rest ih =>
    intro locs muts locs2 muts2 hrun hnd x e hm
    obtain ⟨x0, e0⟩ := p
    rw [islandLocPhase] at hrun
    cases hc : resolveChain e0 x2eFull with
    | complete l =>
      simp only [hc] at hrun
      cases hz : l.getLast? with
      | none => simp only [hz] at hrun; cases hrun
      | some z =>
        simp only [hz] at hrun
        simp only [List.map_cons, List.nodup_cons] at hnd
        rcases List.mem_cons.mp hm with heq | hm2
        · have hx : x = x0 := congrArg Prod.fst heq
          have he : e = e0 := congrArg Prod.snd heq
          refine ⟨l, z, by rw [he]; exact hc, hz, ?_⟩
          have hkz : ∀ q ∈ rest, q.1.zone_name ≠ x.zone_name := by
            intro q hq hqz
            apply hnd.1
            rw [← hx]
            exact hqz ▸ List.mem_map.mpr ⟨q, hq, rfl⟩
          have hpres := islandLocPhase_preserve x2eFull dry rest _ _ _ _ hrun x.zone_name hkz
          rw [hpres, hx, dictGet_dictSet_self]
        · exact ih _ _ _ _ hrun hnd.2 x e hm2
    | incomplete => simp only [hc] at hrun; cases hrun
    | cycleErr => simp only [hc] at hrun; cases hrun
    | catalogErr => simp only [hc] at hrun; cases hrun
    | fuelOut => simp only [hc] at hrun; cases hrun

theorem bossWarpAllPhase_full (x2eFull : List (ZoneExit × ZoneEntrance)) (dry : Bool) :
    ∀ (items : List ZoneExit) (muts : List Mutation),
      (∀ bx ∈ items, dry = false → ∃ e, lookupX2E x2eFull bx = some e ∧
        ∃ l z, resolveChain e x2eFull = .complete l ∧ l.getLast? = some z) →
      ∃ muts2, bossWarpAllPhase x2eFull dry items muts = .ok (muts ++ muts2) ∧
        (dry = true → muts2 = []) := by
  intro items
  induction items with
  | nil =>
    intro muts hpre
    exact ⟨[], by simp [bossWarpAllPhase], fun _ => rfl⟩
  | cons bx rest ih =>
    intro muts hpre
    cases hd : dry with
    | true =>
      rcases ih muts (fun q hq hdf => hpre q (List.mem_cons_of_mem _ hq) hdf) with
        ⟨muts2, hrec, hdry⟩
      refine ⟨muts2, ?_, fun _ => hdry hd⟩
      rw [bossWarpAllPhase, if_pos rfl]
      rw [hd] at hrec
      exact hrec
    | false =>
      subst hd
      rcases hpre bx (List.mem_cons_self _ _) rfl with ⟨e, hlk, l, z, hc, hz⟩
      rcases ih (muts ++ [.bossWarp (some bx.stage_name) z])
          (fun q hq hdf => hpre q (List.mem_cons_of_mem _ hq) hdf) with ⟨muts2, hrec, -⟩
      refine ⟨[Mutation.bossWarp (some bx.stage_name) z] ++ muts2, ?_, by simp⟩
      rw [bossWarpAllPhase]
      simp only [hlk, hc, hz, Bool.false_eq_true, if_false]
      rw [hrec]
      simp

theorem dungeonBossPhase_full (x2eFull : List (ZoneExit × ZoneEntrance)) (dry : Bool) :
    ∀ (items : List ZoneExit) (locs : List (String × Option String)) (muts : List Mutation),
      (∀ dx ∈ items, ∃ e, lookupX2E x2eFull dx = some e ∧
        ∃ bx, BOSS_EXITS.find? (fun z => decide (some z.stage_name = dx.boss_stage_name)) =
          some bx) →
      ∃ locs2 muts2, dungeonBossPhase x2eFull dry items locs muts = .ok (locs2, muts ++ muts2) ∧
        (dry = true → muts2 = []) := by
  intro items
  induction items with
  | nil =>
    intro locs muts hpre
    exact ⟨locs, [], by simp [dungeonBossPhase], fun _ => rfl⟩
  | cons dx rest ih =>
    intro locs muts hpre
    rcases hpre dx (List.mem_cons_self _ _) with ⟨e, hlk, bx, hfind⟩
    rcases ih (dictSet locs bx.zone_name e.island_name)
        (muts ++ (if dry then [] else [.bossWarp dx.boss_stage_name e]))
        (fun q hq => hpre q (List.mem_cons_of_mem _ hq)) with ⟨locs2, muts2, hrec, hdry⟩
    refine ⟨locs2, (if dry then [] else [.bossWarp dx.boss_stage_name e]) ++ muts2, ?_, ?_⟩
    · rw [dungeonBossPhase]
      simp only [hlk, hfind]
      rw [hrec]
      simp
    · intro hd
      rw [hdry hd]
      simp [hd]

theorem dungeonBossPhase_preserve (x2eFull : List (ZoneExit × ZoneEntrance)) (dry : Bool) :
    ∀ (items : List ZoneExit) (locs : List (String × Option String)) (muts : List Mutation)
      (locs2 : List (String × Option String)) (muts2 : List Mutation),
      dungeonBossPhase x2eFull dry items locs muts = .ok (locs2, muts2) →
      ∀ k, (∀ dx ∈ items, ∀ bx,
          BOSS_EXITS.find? (fun z => decide (some z.stage_name = dx.boss_stage_name)) =
            some bx → bx.zone_name ≠ k) →
        dictGet locs2 k = dictGet locs k := by
  intro items
  induction items with
  | nil =>
    intro locs muts locs2 muts2 hrun k hk
    rw [dungeonBossPhase] at hrun
    injection hrun with hrun
    rw [(Prod.mk.injEq _ _ _ _).mp hrun |>.1]
  | cons dx rest ih =>
    intro locs muts locs2 muts2 hrun k hk
    rw [dungeonBossPhase] at hrun
    cases hlk : lookupX2E x2eFull dx with
    | none => simp only [hlk] at hrun; cases hrun
    | some e =>
      simp only [hlk] at hrun
      cases hfind : BOSS_EXITS.find?
          (fun z => decide (some z.stage_name = dx.boss_stage_name)) with
      | none => simp only [hfind] at hrun; cases hrun
      | some bx =>
        simp only [hfind] at hrun
        have := ih _ _ _ _ hrun k (fun q hq => hk q (List.mem_cons_of_mem _ hq))
        rw [this]
        exact dictGet_dictSet_ne locs bx.zone_name k e.island_name
          (fun hh => hk dx (List.mem_cons_self _ _) bx hfind hh.symm)

theorem dungeonBossPhase_lookup (x2eFull : List (ZoneExit × ZoneEntrance)) (dry : Bool) :
    ∀ (items : List ZoneExit) (locs : List (String × Option String)) (muts : List Mutation)
      (locs2 : List (String × Option String)) (muts2 : List Mutation),
      dungeonBossPhase x2eFull dry items locs muts = .ok (locs2, muts2) →
      items.Nodup →
      ∀ dx ∈ items, ∀ e bx,
        lookupX2E x2eFull dx = some e →
        BOSS_EXITS.find? (fun z => decide (some z.stage_name = dx.boss_stage_name)) = some bx →
        (∀ dx2 ∈ items, ∀ bx2, dx2 ≠ dx →
          BOSS_EXITS.find? (fun z => decide (some z.stage_name = dx2.boss_stage_name)) =
            some bx2 → bx2.zone_name ≠ bx.zone_name) →
        dictGet locs2 bx.zone_name = some e.island_name := by
  intro items
  induction items with
  | nil =>
    intro locs muts locs2 muts2 hrun hnd dx hm
    simp at hm
  | cons d0 rest ih =>
    intro locs muts locs2 muts2 hrun hnd dx hm e bx hlk hfind hkeys
    rw [dungeonBossPhase] at hrun
    rcases List.mem_cons.mp hm with rfl | hm2
    · rw [hlk] at hrun
      simp only [hfind] at hrun
      have hpres := dungeonBossPhase_preserve x2eFull dry rest _ _ _ _ hrun bx.zone_name ?_
      · rw [hpres, dictGet_dictSet_self]
      · intro q hq bx2 hfind2
        have hqne : q ≠ dx := by
          intro hqq
          rw [List.nodup_cons] at hnd
          exact hnd.1 (hqq ▸ hq)
        exact hkeys q (List.mem_cons_of_mem _ hq) bx2 hqne hfind2
    · cases hlk0 : lookupX2E x2eFull d0 with
      | none => simp only [hlk0] at hrun; cases hrun
      | some e0 =>
        simp only [hlk0] at hrun
        cases hfind0 : BOSS_EXITS.find?
            (fun z => decide (some z.stage_name = d0.boss_stage_name)) with
        | none => simp only [hfind0] at hrun; cases hrun
        | some bx0 =>
          simp only [hfind0] at hrun
          rw [List.nodup_cons] at hnd
          exact ih _ _ _ _ hrun hnd.2 dx hm2 e bx hlk hfind
            (fun q hq bx2 hq2 hf2 => hkeys q (List.mem_cons_of_mem _ hq) bx2 hq2 hf2)

theorem nestedPathsPhase_ok (x2eFull : List (ZoneExit × ZoneEntrance)) :
    ∀ (items : List ZoneExit) (paths : List (List String)),
      (∀ t ∈ items, ∃ e, lookupX2E x2eFull t = some e ∧
        ∃ l, resolveChain e x2eFull = .complete l) →
      ∃ paths2, nestedPathsPhase x2eFull items paths = .ok paths2 := by
  intro items
  induction items with
  | nil =>
    intro paths hpre
    exact ⟨paths, by simp [nestedPathsPhase]⟩
  | cons t rest ih =>
    intro paths hpre
    rcases hpre t (List.mem_cons_self _ _) with ⟨e, hlk, l, hc⟩
    rcases ih (paths ++ [(t.unique_name :: l.map (fun entr => entr.entrance_name)).reverse])
        (fun q hq => hpre q (List.mem_cons_of_mem _ hq)) with ⟨paths2, hrec⟩
    refine ⟨paths2, ?_⟩
    rw [nestedPathsPhase]
    simp only [hlk, hc]
    exact hrec

theorem dungeon_boss_find :
    ∀ dx ∈ DUNGEON_EXITS, ∃ bx, BOSS_EXITS.find?
      (fun z => decide (some z.stage_name = dx.boss_stage_name)) = some bx := by
  intro dx hdx
  have hs : (BOSS_EXITS.find? (fun z => decide (some z.stage_name = dx.boss_stage_name))).isSome
      = true := by
    revert hdx
    revert dx
    decide
  exact Option.isSome_iff_exists.mp hs

theorem prepSafety_perm {opts : EngineOptions} {d c : Bool} (b : Bool)
    {shuffled : List ZoneEntrance} {stream : Nat → Nat} {safety : Option ZoneEntrance}
    {pending0 : List ZoneEntrance} {idx0 : Nat}
    (hperm : shuffled.Perm (relevantEntrancesFor d b c))
    (hp : prepSafety opts d c shuffled stream = .ok (safety, pending0, idx0)) :
    pending0.Perm (relevantEntrancesFor d b c) := by
  have hnd : shuffled.Nodup := hperm.nodup_iff.mpr (relevantEntrancesFor_nodup d b c)
  have har : (afterRaceList opts shuffled).Perm shuffled := by
    unfold afterRaceList
    split
    · exact raceModeReorder_perm shuffled hnd
    · exact List.Perm.refl _
  unfold prepSafety at hp
  split at hp
  · cases hch : rngChoice (stream 0) ((afterRaceList opts shuffled).filter
        (fun e => decide (e.entrance_name ∈ entranceNamesNoReq opts))) with
    | none => simp only [hch] at hp; cases hp
    | some s0 =>
      simp only [hch] at hp
      injection hp with hp
      have hs0 : s0 ∈ afterRaceList opts shuffled :=
        List.mem_of_mem_filter (rngChoice_mem hch)
      have hper0 : (s0 :: (afterRaceList opts shuffled).erase s0).Perm
          (afterRaceList opts shuffled) := (List.perm_cons_erase hs0).symm
      have hpend : pending0 = s0 :: (afterRaceList opts shuffled).erase s0 := by
        have := congrArg (fun q => q.2.1) hp
        simpa using this.symm
      rw [hpend]
      exact (hper0.trans har).trans hperm
  · injection hp with hp
    have hpend : pending0 = afterRaceList opts shuffled := by
      have := congrArg (fun q => q.2.1) hp
      simpa using this.symm
    rw [hpend]
    exact har.trans hperm

theorem final_remaining_nil {opts : EngineOptions} {d b c : Bool} {st : LoopSt}
    (h : LoopInv opts d b c st) (hpend : st.pending = []) : st.remaining = [] := by
  have h1 := h.permE.length_eq
  have h2 := h.permX.length_eq
  have h3 := relevant_length_eq d b c
  rw [hpend] at h1
  simp only [List.length_append, List.length_map, List.length_nil] at h1 h2
  have : st.remaining.length = 0 := by omega
  exact List.length_eq_zero.mp this

theorem final_exit_lookup {opts : EngineOptions} {d b c : Bool} {st : LoopSt}
    (h : LoopInv opts d b c st) (hpend : st.pending = []) :
    ∀ x ∈ relevantExitsFor d b c, ∃ e, lookupX2E st.x2e x = some e ∧ (e, x) ∈ st.e2x := by
  intro x hx
  have hrem := final_remaining_nil h hpend
  have hmm : x ∈ st.e2x.map Prod.snd := by
    have := h.permX.mem_iff.mpr hx
    rw [hrem] at this
    simpa using this
  have hkeys : x ∈ st.x2e.map Prod.fst := by
    rw [h.mirror]
    rcases List.mem_map.mp hmm with ⟨q, hq, hqe⟩
    exact List.mem_map.mpr ⟨(q.2, q.1), List.mem_map.mpr ⟨q, hq, rfl⟩, hqe⟩
  have hs : (lookupX2E st.x2e x).isSome = true := dictGet_isSome_of_mem_keys hkeys
  cases hlk : lookupX2E st.x2e x with
  | none => rw [hlk] at hs; cases hs
  | some e =>
    refine ⟨e, rfl, ?_⟩
    have hm2 := dictGet_mem hlk
    rw [h.mirror] at hm2
    rcases List.mem_map.mp hm2 with ⟨q, hq, hqe⟩
    have hq1 : q.2 = x := congrArg Prod.fst hqe
    have hq2 : q.1 = e := congrArg Prod.snd hqe
    have hqex : q = (e, x) := Prod.ext hq2 hq1
    exact hqex ▸ hq

theorem final_chain_last {opts : EngineOptions} {d b c : Bool} {st : LoopSt}
    (h : LoopInv opts d b c st) :
    ∀ p ∈ st.e2x, ∃ l z, resolveChain p.1 st.x2e = .complete l ∧ l.getLast? = some z ∧
      z.is_nested = false := by
  intro p hp
  rcases h.chains p hp with ⟨l, hc⟩
  have hc' : get_all_entrances_on_path_to_entrance chainFuel [] p.1 st.x2e =
      .complete ([] ++ l) := by simpa using hc
  rcases chain_decomp chainFuel [] p.1 st.x2e ([] ++ l) hc' with
    ⟨t, hteq, htne, -, -, -, hlast, -, -⟩
  have ht : l = t := by simpa using hteq
  subst ht
  rcases hlast with ⟨z, hz, hzn⟩
  exact ⟨l, z, hc, hz, hzn⟩

theorem finishRun_ok {opts : EngineOptions} {d b c : Bool} {st : LoopSt}
    (h : LoopInv opts d b c st) (hpend : st.pending = []) :
    ∃ out muts, finishRun opts d b c st = (.ok out, muts) ∧
      out.e2x = st.e2x ∧ out.x2e = st.x2e ∧ out.conns = st.conns ∧
      (opts.dry_run = true → muts = []) := by
  have hchain : ∀ p ∈ st.x2e, ∃ l z, resolveChain p.2 st.x2e = .complete l ∧
      l.getLast? = some z := by
    intro p hp
    rw [h.mirror] at hp
    rcases List.mem_map.mp hp with ⟨q, hq, hqe⟩
    rcases final_chain_last h q hq with ⟨l, z, hc, hz, -⟩
    have hp2 : p.2 = q.1 := by rw [← hqe]
    rw [hp2]
    exact ⟨l, z, hc, hz⟩
  rcases islandLocPhase_full st.x2e opts.dry_run st.x2e [] [] hchain with
    ⟨locs2, muts2, hil, hdry2⟩
  rw [List.nil_append] at hil
  unfold finishRun
  simp only [hil]
  by_cases hb : b = true
  · rw [if_pos hb]
    have hbw_pre : ∀ bx ∈ BOSS_EXITS, opts.dry_run = false →
        ∃ e, lookupX2E st.x2e bx = some e ∧
          ∃ l z, resolveChain e st.x2e = .complete l ∧ l.getLast? = some z := by
      intro bx hbx _
      have hbrel : bx ∈ relevantExitsFor d b c := by
        rw [hb]
        exact boss_exits_subset_relevant d c bx hbx
      rcases final_exit_lookup h hpend bx hbrel with ⟨e, hlk, hpair⟩
      rcases final_chain_last h (e, bx) hpair with ⟨l, z, hc, hz, -⟩
      exact ⟨e, hlk, l, z, hc, hz⟩
    rcases bossWarpAllPhase_full st.x2e opts.dry_run BOSS_EXITS muts2 hbw_pre with
      ⟨muts3, hbw, hdry3⟩
    simp only [hbw]
    have hpath_pre : ∀ t ∈ (relevantExitsFor d b c).filter
        (fun x => decide (x ∉ DUNGEON_EXITS)), ∃ e, lookupX2E st.x2e t = some e ∧
          ∃ l, resolveChain e st.x2e = .complete l := by
      intro t ht
      have htrel : t ∈ relevantExitsFor d b c := List.mem_of_mem_filter ht
      rcases final_exit_lookup h hpend t htrel with ⟨e, hlk, hpair⟩
      rcases final_chain_last h (e, t) hpair with ⟨l, z, hc, -, -⟩
      exact ⟨e, hlk, l, hc⟩
    rcases nestedPathsPhase_ok st.x2e ((relevantExitsFor d b c).filter
        (fun x => decide (x ∉ DUNGEON_EXITS))) [] hpath_pre with ⟨paths2, hnp⟩
    simp only [hnp]
    refine ⟨⟨st.e2x, st.x2e, st.conns, locs2, paths2⟩, muts2 ++ muts3, rfl, rfl, rfl, rfl, ?_⟩
    intro hdr
    rw [hdry2 hdr, hdry3 hdr]
    rfl
  · rw [if_neg hb]
    by_cases hd : d = true
    · rw [if_pos hd]
      have hdb_pre : ∀ dx ∈ DUNGEON_EXITS, ∃ e, lookupX2E st.x2e dx = some e ∧
          ∃ bx, BOSS_EXITS.find?
            (fun z => decide (some z.stage_name = dx.boss_stage_name)) = some bx := by
        intro dx hdx
        have hdrel : dx ∈ relevantExitsFor d b c := by
          rw [hd]
          exact dungeon_exits_subset_relevant b c dx hdx
        rcases final_exit_lookup h hpend dx hdrel with ⟨e, hlk, -⟩
        rcases dungeon_boss_find dx hdx with ⟨bx, hbx⟩
        exact ⟨e, hlk, bx, hbx⟩
      rcases dungeonBossPhase_full st.x2e opts.dry_run DUNGEON_EXITS locs2 muts2 hdb_pre with
        ⟨locs3, muts3, hdb, hdry3⟩
      simp only [hdb]
      refine ⟨⟨st.e2x, st.x2e, st.conns, locs3, []⟩, muts2 ++ muts3, rfl, rfl, rfl, rfl, ?_⟩
      intro hdr
      rw [hdry2 hdr, hdry3 hdr]
      rfl
    · rw [if_neg hd]
      exact ⟨⟨st.e2x, st.x2e, st.conns, locs2, []⟩, muts2, rfl, rfl, rfl, rfl, hdry2⟩

/-- Every successful full run factors through a loop end-state that satisfies
the invariant with an empty queue and pool. -/
theorem runOneSet_ok_facts {opts : EngineOptions} {d b c : Bool}
    {shuffled : List ZoneEntrance} {stream : Nat → Nat} {fuel : Nat}
    {out : RunOut} {muts : List Mutation}
    (hperm : shuffled.Perm (relevantEntrancesFor d b c))
    (hrun : runOneSet opts d b c shuffled stream fuel = (.ok out, muts)) :
    ∃ st : LoopSt, LoopInv opts d b c st ∧ st.pending = [] ∧ st.remaining = [] ∧
      out.e2x = st.e2x ∧ out.x2e = st.x2e ∧ out.conns = st.conns ∧
      finishRun opts d b c st = (.ok out, muts) := by
  unfold runOneSet at hrun
  cases hprep : prepSafety opts d c shuffled stream with
  | error err => simp only [hprep] at hrun; cases hrun
  | ok trip =>
    obtain ⟨safety, pending0, idx0⟩ := trip
    simp only [hprep] at hrun
    cases hloop : assignLoop opts (doingProgressFlag opts d c) safety (exitNamesNoReq opts)
        stream fuel ⟨pending0, relevantExitsFor d b c, [], [], [], idx0⟩ with
    | error err => simp only [hloop] at hrun; cases hrun
    | ok st =>
      simp only [hloop] at hrun
      have hinit := loopInv_init opts d b c pending0 (prepSafety_perm b hperm hprep) [] idx0
      have hfin := assignLoop_ok_inv fuel _ st hinit hloop
      rcases finishRun_ok hfin.1 hfin.2 with ⟨out2, muts2, hfr, he1, he2, he3, -⟩
      rw [hfr] at hrun
      have h1 : Except.ok out2 = Except.ok out := congrArg Prod.fst hrun
      injection h1 with h1
      have h2 : muts2 = muts := congrArg Prod.snd hrun
      subst h1
      subst h2
      exact ⟨st, hfin.1, hfin.2, final_remaining_nil hfin.1 hfin.2, he1, he2, he3, hfr⟩

theorem relevant_zone_names_nodup (d b c : Bool) :
    ((relevantExitsFor d b c).map (fun x => x.zone_name)).Nodup := by
  cases d <;> cases b <;> cases c <;> decide

theorem relevant_no_boss_zone (d c : Bool) :
    ∀ x ∈ relevantExitsFor d false c, ∀ bx ∈ BOSS_EXITS, x.zone_name ≠ bx.zone_name := by
  cases d <;> cases c <;> decide

theorem dungeon_exits_nodup : DUNGEON_EXITS.Nodup := by decide

theorem arena_keys_distinct :
    ∀ dx ∈ DUNGEON_EXITS, ∀ dx2 ∈ DUNGEON_EXITS, dx2 ≠ dx →
      (BOSS_EXITS.find? (fun z => decide (some z.stage_name = dx2.boss_stage_name))).map
          (fun z => z.zone_name) ≠
        (BOSS_EXITS.find? (fun z => decide (some z.stage_name = dx.boss_stage_name))).map
          (fun z => z.zone_name) := by
  decide

/-- What `dungeon_and_cave_island_locations` contains after the final phase:
the outermost island for every placed exit's zone, and (when dungeons are
randomized without bosses) the owning dungeon's entrance island for every
paired boss arena. -/
theorem finishRun_islandLocs {opts : EngineOptions} {d b c : Bool} {st : LoopSt}
    {out : RunOut} {muts : List Mutation}
    (h : LoopInv opts d b c st) (hpend : st.pending = [])
    (hfr : finishRun opts d b c st = (.ok out, muts)) :
    (∀ p ∈ st.e2x, ∃ l z, resolveChain p.1 st.x2e = .complete l ∧ l.getLast? = some z ∧
      dictGet out.islandLocs p.2.zone_name = some z.island_name) ∧
    (b = false → d = true → ∀ dx ∈ DUNGEON_EXITS, ∃ e bx, lookupX2E st.x2e dx = some e ∧
      BOSS_EXITS.find? (fun z => decide (some z.stage_name = dx.boss_stage_name)) = some bx ∧
      dictGet out.islandLocs bx.zone_name = some e.island_name) := by
  have hrem := final_remaining_nil h hpend
  have hperm2 : (st.e2x.map Prod.snd).Perm (relevantExitsFor d b c) := by
    have hx := h.permX
    rw [hrem] at hx
    simpa using hx
  have hkeysnd : (st.x2e.map (fun p => p.1.zone_name)).Nodup := by
    have h1 : st.x2e.map (fun p => p.1.zone_name) =
        (st.e2x.map Prod.snd).map (fun x => x.zone_name) := by
      rw [h.mirror, List.map_map, List.map_map]
      rfl
    rw [h1]
    exact ((hperm2.map (fun x => x.zone_name)).nodup_iff).mpr (relevant_zone_names_nodup d b c)
  unfold finishRun at hfr
  cases hil : islandLocPhase st.x2e opts.dry_run st.x2e [] [] with
  | error p =>
    simp only [hil] at hfr
    obtain ⟨perr, pmuts⟩ := p
    simp [Prod.ext_iff] at hfr
  | ok pr =>
    obtain ⟨locs2, muts2⟩ := pr
    simp only [hil] at hfr
    have part1core : ∀ p ∈ st.e2x, ∃ l z, resolveChain p.1 st.x2e = .complete l ∧
        l.getLast? = some z ∧ dictGet locs2 p.2.zone_name = some z.island_name := by
      intro p hp
      have hmem : (p.2, p.1) ∈ st.x2e := by
        rw [h.mirror]
        exact List.mem_map.mpr ⟨p, hp, rfl⟩
      exact islandLocPhase_lookup st.x2e opts.dry_run st.x2e [] [] locs2 muts2 hil
        hkeysnd p.2 p.1 hmem
    by_cases hb : b = true
    · rw [if_pos hb] at hfr
      cases hbw : bossWarpAllPhase st.x2e opts.dry_run BOSS_EXITS muts2 with
      | error p =>
        simp only [hbw] at hfr
        obtain ⟨perr, pmuts⟩ := p
        simp [Prod.ext_iff] at hfr
      | ok muts3 =>
        simp only [hbw] at hfr
        cases hnp : nestedPathsPhase st.x2e ((relevantExitsFor d b c).filter
            (fun x => decide (x ∉ DUNGEON_EXITS))) [] with
        | error perr =>
          simp only [hnp] at hfr
          simp [Prod.ext_iff] at hfr
        | ok paths =>
          simp only [hnp] at hfr
          have hout : (⟨st.e2x, st.x2e, st.conns, locs2, paths⟩ : RunOut) = out := by
            have := congrArg Prod.fst hfr
            injection this
          refine ⟨?_, ?_⟩
          · intro p hp
            rcases part1core p hp with ⟨l, z, hc, hz, hg⟩
            refine ⟨l, z, hc, hz, ?_⟩
            rw [← hout]
            exact hg
          · intro hbf
            rw [hb] at hbf
            cases hbf
    · rw [if_neg hb] at hfr
      have hbf : b = false := by
        cases b with
        | false => rfl
        | true => exact absurd rfl hb
      by_cases hd : d = true
      · rw [if_pos hd] at hfr
        cases hdb : dungeonBossPhase st.x2e opts.dry_run DUNGEON_EXITS locs2 muts2 with
        | error p =>
          simp only [hdb] at hfr
          obtain ⟨perr, pmuts⟩ := p
          simp [Prod.ext_iff] at hfr
        | ok pr2 =>
          obtain ⟨locs3, muts3⟩ := pr2
          simp only [hdb] at hfr
          have hout : (⟨st.e2x, st.x2e, st.conns, locs3, []⟩ : RunOut) = out := by
            have := congrArg Prod.fst hfr
            injection this
          refine ⟨?_, ?_⟩
          · intro p hp
            rcases part1core p hp with ⟨l, z, hc, hz, hg⟩
            refine ⟨l, z, hc, hz, ?_⟩
            rw [← hout]
            show dictGet locs3 p.2.zone_name = some z.island_name
            have hpres := dungeonBossPhase_preserve st.x2e opts.dry_run DUNGEON_EXITS
              locs2 muts2 locs3 muts3 hdb p.2.zone_name ?_
            · rw [hpres]
              exact hg
            · intro dx hdx bx hfind hzz
              have hbxm : bx ∈ BOSS_EXITS := List.mem_of_find?_eq_some hfind
              have hp2rel : p.2 ∈ relevantExitsFor d b c :=
                hperm2.subset (List.mem_map.mpr ⟨p, hp, rfl⟩)
              rw [hbf] at hp2rel
              exact relevant_no_boss_zone d c p.2 hp2rel bx hbxm hzz.symm
          · intro _ _ dx hdx
            have hdxrel : dx ∈ relevantExitsFor d b c := by
              rw [hd, hbf]
              exact dungeon_exits_subset_relevant false c dx hdx
            rcases final_exit_lookup h hpend dx hdxrel with ⟨e, hlk, -⟩
            rcases dungeon_boss_find dx hdx with ⟨bx, hfind⟩
            refine ⟨e, bx, hlk, hfind, ?_⟩
            rw [← hout]
            show dictGet locs3 bx.zone_name = some e.island_name
            refine dungeonBossPhase_lookup st.x2e opts.dry_run DUNGEON_EXITS locs2 muts2
              locs3 muts3 hdb dungeon_exits_nodup dx hdx e bx hlk hfind ?_
            intro dx2 hdx2 bx2 hne2 hfind2
            have := arena_keys_distinct dx hdx dx2 hdx2 hne2
            rw [hfind, hfind2] at this
            intro hzz
            apply this
            simp [hzz]
      · rw [if_neg hd] at hfr
        have hout : (⟨st.e2x, st.x2e, st.conns, locs2, []⟩ : RunOut) = out := by
          have := congrArg Prod.fst hfr
          injection this
        refine ⟨?_, ?_⟩
        · intro p hp
          rcases part1core p hp with ⟨l, z, hc, hz, hg⟩
          refine ⟨l, z, hc, hz, ?_⟩
          rw [← hout]
          exact hg
        · intro _ hd2
          exact absurd hd2 hd

theorem fst_nodup_unique {l : List (α × β)} (hnd : (l.map Prod.fst).Nodup) :
    ∀ p ∈ l, ∀ q ∈ l, p.1 = q.1 → p = q := by
  induction l with
  | nil => simp
  | cons r rest ih =>
    simp only [List.map_cons, List.nodup_cons] at hnd
    intro p hp q hq he
    rcases List.mem_cons.mp hp with rfl | hp2
    · rcases List.mem_cons.mp hq with rfl | hq2
      · rfl
      · exfalso
        apply hnd.1
        rw [he]
        exact List.mem_map.mpr ⟨q, hq2, rfl⟩
    · rcases List.mem_cons.mp hq with rfl | hq2
      · exfalso
        apply hnd.1
        rw [← he]
        exact List.mem_map.mpr ⟨p, hp2, rfl⟩
      · exact ih hnd.2 p hp2 q hq2 he

theorem snd_nodup_unique {l : List (α × β)} (hnd : (l.map Prod.snd).Nodup) :
    ∀ p ∈ l, ∀ q ∈ l, p.2 = q.2 → p = q := by
  induction l with
  | nil => simp
  | cons r rest ih =>
    simp only [List.map_cons, List.nodup_cons] at hnd
    intro p hp q hq he
    rcases List.mem_cons.mp hp with rfl | hp2
    · rcases List.mem_cons.mp hq with rfl | hq2
      · rfl
      · exfalso
        apply hnd.1
        rw [he]
        exact List.mem_map.mpr ⟨q, hq2, rfl⟩
    · rcases List.mem_cons.mp hq with rfl | hq2
      · exfalso
        apply hnd.1
        rw [← he]
        exact List.mem_map.mpr ⟨p, hp2, rfl⟩
      · exact ih hnd.2 p hp2 q hq2 he

/-! ### Concrete runs used by counterexamples and witnesses -/

def defaultRunOut : RunOut := ⟨[], [], [], [], []⟩

def okOut (r : Except RunError RunOut × List Mutation) : RunOut :=
  match r with
  | (.ok o, _) => o
  | (.error _, _) => defaultRunOut

def defaultExit : ZoneExit := ⟨"", 0, 0, 0, "", "", none⟩

def runDungeonsOnly : Except RunError RunOut × List Mutation :=
  runOneSet {} true false false DUNGEON_ENTRANCES (fun _ => 0) 42

def outDungeonsOnly : RunOut := okOut runDungeonsOnly

def runDungeonsRace : Except RunError RunOut × List Mutation :=
  runOneSet { race_mode := true } true false false DUNGEON_ENTRANCES (fun _ => 0) 42

def outDungeonsRace : RunOut := okOut runDungeonsRace

def shuffledTogether : List ZoneEntrance :=
  DUNGEON_ENTRANCES ++ BOSS_ENTRANCES ++ SECRET_CAVE_ENTRANCES

def runTogether : Except RunError RunOut × List Mutation :=
  runOneSet {} true true true shuffledTogether (fun _ => 0) 100

def outTogether : RunOut := okOut runTogether

def gohmaExit : ZoneExit := ⟨"M_DragB", 0, 0, 0, "Gohma Boss Arena", "Gohma Boss Arena", none⟩

def kalleExit : ZoneExit :=
  ⟨"kinBOSS", 0, 0, 0, "Kalle Demos Boss Arena", "Kalle Demos Boss Arena", none⟩

def savageExit : ZoneExit := ⟨"Cave09", 0, 1, 0, "Outset Island", "Savage Labyrinth", none⟩

def optsC3 : EngineOptions :=
  { progression_dungeons := true, dungeons_and_caves_only_start := true, dry_run := true }

def runC3 : Except RunError RunOut × List Mutation :=
  runOneSet optsC3 true false false DUNGEON_ENTRANCES (fun _ => 1) 42

def outC3 : RunOut := okOut runC3

def safetyC3 : Option ZoneEntrance :=
  match prepSafety optsC3 true false DUNGEON_ENTRANCES (fun _ => 1) with
  | .ok (s, _, _) => s
  | .error _ => none

def pawOneEntrance : ZoneEntrance :=
  ⟨"sea", 12, 0, 1, "Secret Cave Entrance on Pawprint Isle", some "Pawprint Isle", some "sea", some 12, some 1⟩

def pawTwoEntrance : ZoneEntrance :=
  ⟨"sea", 12, 1, 5, "Secret Cave Entrance on Pawprint Isle Side Isle", some "Pawprint Isle", some "sea", some 12, some 5⟩

def driCaveEntrance : ZoneEntrance :=
  ⟨"sea", 13, 2, 5, "Secret Cave Entrance on Dragon Roost Island", some "Dragon Roost Island", some "sea", some 13, some 5⟩

def driDungeonEntrance : ZoneEntrance :=
  ⟨"Adanmae", 0, 2, 2, "Dungeon Entrance on Dragon Roost Island", some "Dragon Roost Island", some "sea", some 13, some 211⟩

def bossEntranceDRC : ZoneEntrance :=
  ⟨"M_NewD2", 10, 1, 27, "Boss Entrance in Dragon Roost Cavern", none, none, none, none⟩

def bossEntranceFW : ZoneEntrance :=
  ⟨"kindan", 16, 0, 1, "Boss Entrance in Forbidden Woods", none, none, none, none⟩

def shuffledRace : List ZoneEntrance :=
  [pawOneEntrance, pawTwoEntrance, driCaveEntrance, driDungeonEntrance] ++ BOSS_ENTRANCES ++
  (SECRET_CAVE_ENTRANCES.filter
    (fun e => decide (e ∉ [pawOneEntrance, pawTwoEntrance, driCaveEntrance]))) ++
  (DUNGEON_ENTRANCES.filter (fun e => decide (e ≠ driDungeonEntrance)))

def streamRace : Nat → Nat := fun i =>
  if i ≤ 3 then 5 else if i ≤ 8 then 0 else if i ≤ 24 then 5 else 0

def runRace : Except RunError RunOut × List Mutation :=
  runOneSet { race_mode := true } true true true shuffledRace streamRace 200

def outRace : RunOut := okOut runRace

/-! ### Race-mode ordering machinery (for the shared-island invariant) -/

/-- An entrance that shares its `island_name` (compared as the code does,
with plain equality on the optionals) with another relevant entrance. -/
def isShared (d b c : Bool) (z : ZoneEntrance) : Prop :=
  ∃ e2 ∈ relevantEntrancesFor d b c, e2 ≠ z ∧ e2.island_name = z.island_name

instance (d b c : Bool) (z : ZoneEntrance) : Decidable (isShared d b c z) :=
  inferInstanceAs (Decidable (∃ e2 ∈ relevantEntrancesFor d b c,
    e2 ≠ z ∧ e2.island_name = z.island_name))

/-- An entrance on an actual island that shares it with another relevant
entrance. -/
def isRealSharing (d b c : Bool) (z : ZoneEntrance) : Prop :=
  z.island_name ≠ none ∧ isShared d b c z

instance (d b c : Bool) (z : ZoneEntrance) : Decidable (isRealSharing d b c z) :=
  inferInstanceAs (Decidable (z.island_name ≠ none ∧ isShared d b c z))

theorem mem_left_of_mem_split {α : Type _} :
    ∀ (A B pre post : List α) (r : α), A ++ B = pre ++ r :: post →
      (A ++ B).Nodup → r ∈ A → ∀ x ∈ pre, x ∈ A := by
  intro A
  induction A with
  | nil =>
    intro B pre post r heq hnd hr
    cases hr
  | cons a A2 ih =>
    intro B pre post r heq hnd hr x hx
    cases pre with
    | nil => cases hx
    | cons p pre2 =>
      simp only [List.cons_append] at heq
      injection heq with h1 h2
      subst h1
      rcases List.mem_cons.mp hx with rfl | hx2
      · exact List.mem_cons_self _ _
      · rcases List.mem_cons.mp hr with rfl | hrA
        · exfalso
          have hmem : r ∈ A2 ++ B := by
            rw [h2]
            exact List.mem_append_right pre2 (List.mem_cons_self r post)
          exact (List.nodup_cons.mp hnd).1 hmem
        · exact List.mem_cons_of_mem a
            (ih B pre2 post r h2 (List.nodup_cons.mp hnd).2 hrA x hx2)

theorem split_of_append_single {α : Type _} (A : List α) (a r : α) (pre post : List α)
    (heq : A ++ [a] = pre ++ r :: post) (hne : r ≠ a) :
    ∃ post0, post = post0 ++ [a] ∧ A = pre ++ r :: post0 := by
  rcases List.eq_nil_or_concat post with rfl | ⟨post0, z, rfl⟩
  · exfalso
    have hl := congrArg List.getLast? heq
    rw [List.getLast?_concat, List.getLast?_concat] at hl
    exact hne (Option.some.inj hl).symm
  · have heq2 : A ++ [a] = (pre ++ r :: post0) ++ [z] := by
      rw [heq]
      simp
    have hinj := List.append_inj' heq2 rfl
    obtain ⟨hA, haz⟩ := hinj
    have hz : a = z := by injection haz
    subst hz
    exact ⟨post0, List.concat_eq_append post0 a, hA⟩

/-- Catalog fact: the only island values shared by two relevant entrances are
Dragon Roost Island, Pawprint Isle and the absent island of the nested boss
entrances, for every category selection. -/
theorem shared_island_vals (d b c : Bool) :
    ∀ z ∈ relevantEntrancesFor d b c,
      (∃ e2 ∈ relevantEntrancesFor d b c, e2 ≠ z ∧ e2.island_name = z.island_name) →
      z.island_name ∈
        [some "Dragon Roost Island", some "Pawprint Isle", (none : Option String)] := by
  cases d <;> cases b <;> cases c <;> decide

theorem relevant_dungeon_count (b c : Bool) :
    ((relevantExitsFor true b c).filter (fun x => decide (x ∈ DUNGEON_EXITS))).length = 5 := by
  cases b <;> cases c <;> decide

theorem no_boss_exit_relevant (d c : Bool) :
    ∀ x ∈ relevantExitsFor d false c, x ∉ BOSS_EXITS := by
  cases d <;> cases c <;> decide

theorem mem_notUnique_of_shared {d b c : Bool} {shuffled : List ZoneEntrance}
    (hperm : shuffled.Perm (relevantEntrancesFor d b c)) {r : ZoneEntrance}
    (hr : r ∈ shuffled) (hrs : isShared d b c r) :
    r ∈ entrancesNotOnUniqueIslands shuffled := by
  unfold entrancesNotOnUniqueIslands
  rw [List.mem_filter]
  refine ⟨hr, ?_⟩
  rcases hrs with ⟨e2, he2, hne, hisl⟩
  rw [List.any_eq_true]
  exact ⟨e2, hperm.mem_iff.mpr he2, by simp [hisl, hne]⟩

theorem shared_of_mem_notUnique {d b c : Bool} {shuffled : List ZoneEntrance}
    (hperm : shuffled.Perm (relevantEntrancesFor d b c)) {x : ZoneEntrance}
    (hx : x ∈ entrancesNotOnUniqueIslands shuffled) : isShared d b c x := by
  unfold entrancesNotOnUniqueIslands at hx
  rw [List.mem_filter] at hx
  rcases hx with ⟨hxm, hany⟩
  rw [List.any_eq_true] at hany
  rcases hany with ⟨o, ho, hcond⟩
  simp only [Bool.and_eq_true, decide_eq_true_eq] at hcond
  exact ⟨o, hperm.mem_iff.mp ho, hcond.2, hcond.1⟩

/-- The counting core of the race-mode invariant: while every placed holder
of a Dungeon exit is a shared-island entrance or the safety entrance, at
most four of the five Dungeon exits can be placed (holders have pairwise
distinct islands by the race filter, and only the two shared islands, the
absent island, and the safety entrance's island are available), so a
Dungeon exit always remains. -/
theorem dungeon_exit_remains {opts : EngineOptions} {d b c : Bool} {st : LoopSt}
    {safety : Option ZoneEntrance}
    (h : LoopInv opts d b c st) (hrace : opts.race_mode = true) (hd : d = true)
    (hshare : ∀ p ∈ st.e2x, p.2 ∈ DUNGEON_EXITS →
      isShared d b c p.1 ∨ safety = some p.1) :
    ∃ dx ∈ st.remaining, dx ∈ DUNGEON_EXITS := by
  by_contra hno
  push_neg at hno
  have hsubL : (st.e2x.filter (fun p => decide (p.2 ∈ DUNGEON_EXITS))).Sublist st.e2x :=
    List.filter_sublist _
  have hlen5 : (st.e2x.filter (fun p => decide (p.2 ∈ DUNGEON_EXITS))).length = 5 := by
    have hpf := h.permX.filter (fun x => decide (x ∈ DUNGEON_EXITS))
    rw [List.filter_append] at hpf
    have hrn : st.remaining.filter (fun x => decide (x ∈ DUNGEON_EXITS)) = [] := by
      rw [List.filter_eq_nil_iff]
      intro a ha
      simp only [decide_eq_true_eq]
      exact hno a ha
    rw [hrn, List.append_nil] at hpf
    have h1 : ((st.e2x.map Prod.snd).filter (fun x => decide (x ∈ DUNGEON_EXITS))).length =
        ((relevantExitsFor d b c).filter (fun x => decide (x ∈ DUNGEON_EXITS))).length :=
      hpf.length_eq
    subst hd
    rw [relevant_dungeon_count b c] at h1
    rw [List.filter_map] at h1
    rw [List.length_map] at h1
    exact h1
  have hpw : (st.e2x.filter (fun p => decide (p.2 ∈ DUNGEON_EXITS))).Pairwise
      (fun p q => p.1.island_name ≠ q.1.island_name) := by
    have hpr := List.Pairwise.sublist hsubL (h.racePair hrace)
    refine hpr.imp_of_mem ?_
    intro p q hp hq hr
    have hpD : p.2 ∈ DUNGEON_EXITS := by
      have := (List.mem_filter.mp hp).2
      simpa using this
    have hqD : q.2 ∈ DUNGEON_EXITS := by
      have := (List.mem_filter.mp hq).2
      simpa using this
    intro hisl
    exact hr hisl ⟨hpD, hqD⟩
  have hnd : ((st.e2x.filter (fun p => decide (p.2 ∈ DUNGEON_EXITS))).map
      (fun p => p.1.island_name)).Nodup :=
    hpw.map _ (fun _ _ hab => hab)
  have hsubV : ∀ v ∈ (st.e2x.filter (fun p => decide (p.2 ∈ DUNGEON_EXITS))).map
      (fun p => p.1.island_name),
      v ∈ [some "Dragon Roost Island", some "Pawprint Isle", (none : Option String)] ++
        (safety.map (fun s => s.island_name)).toList := by
    intro v hv
    rcases List.mem_map.mp hv with ⟨p, hpL, rfl⟩
    have hpe2x : p ∈ st.e2x := hsubL.subset hpL
    have hpD : p.2 ∈ DUNGEON_EXITS := by
      have := (List.mem_filter.mp hpL).2
      simpa using this
    rcases hshare p hpe2x hpD with hsh | hsf
    · have hrel : p.1 ∈ relevantEntrancesFor d b c := by
        have hm : p.1 ∈ (st.e2x.map Prod.fst) ++ st.pending :=
          List.mem_append_left _ (List.mem_map.mpr ⟨p, hpe2x, rfl⟩)
        exact h.permE.subset hm
      exact List.mem_append_left _ (shared_island_vals d b c p.1 hrel hsh)
    · apply List.mem_append_right
      rw [hsf]
      simp
  have hle := (hnd.subperm hsubV).length_le
  have hlen4 : ([some "Dragon Roost Island", some "Pawprint Isle", (none : Option String)] ++
      (safety.map (fun s => s.island_name)).toList).length ≤ 4 := by
    cases safety <;> simp
  have hfin := le_trans hle hlen4
  rw [List.length_map, hlen5] at hfin
  omega

theorem resolveChain_not_nested {e : ZoneEntrance} (hn : ¬ e.is_nested = true)
    (m : List (ZoneExit × ZoneEntrance)) : resolveChain e m = .complete [e] := by
  have h6 : chainFuel = 5 + 1 := rfl
  unfold resolveChain
  rw [h6, get_all_step, if_neg hn]
  rfl

theorem prepSafety_shape {opts : EngineOptions} {d c : Bool} {shuffled : List ZoneEntrance}
    {stream : Nat → Nat} {safety : Option ZoneEntrance} {pending0 : List ZoneEntrance}
    {idx0 : Nat}
    (hp : prepSafety opts d c shuffled stream = .ok (safety, pending0, idx0)) :
    (safety = none ∧ pending0 = afterRaceList opts shuffled) ∨
    (∃ s, safety = some s ∧ s ∈ afterRaceList opts shuffled ∧
      pending0 = s :: (afterRaceList opts shuffled).erase s) := by
  unfold prepSafety at hp
  by_cases hdo : doingProgressFlag opts d c = true
  · rw [if_pos hdo] at hp
    cases hch : rngChoice (stream 0) ((afterRaceList opts shuffled).filter
        (fun e => decide (e.entrance_name ∈ entranceNamesNoReq opts))) with
    | none => rw [hch] at hp; cases hp
    | some s =>
      rw [hch] at hp
      injection hp with hp2
      right
      have h1 : some s = safety := congrArg Prod.fst hp2
      have h2 : s :: (afterRaceList opts shuffled).erase s = pending0 :=
        congrArg (fun t => t.2.1) hp2
      exact ⟨s, h1.symm, List.mem_of_mem_filter (rngChoice_mem hch), h2.symm⟩
  · rw [if_neg hdo] at hp
    injection hp with hp2
    left
    exact ⟨(congrArg Prod.fst hp2).symm, (congrArg (fun t => t.2.1) hp2).symm⟩

/-- The race-mode ordering invariant: the island-grouping reorder (lines
195-203) puts every shared-island entrance in front of the unique-island
ones, deferral only moves island-less entrances backwards, and the safety
bootstrap only prepends, so everything processed before a pending
real-island sharing entrance is itself shared or the safety entrance; in
particular every placed holder of a Boss exit is not a real-island sharing
entrance. -/
structure RaceInv (opts : EngineOptions) (d b c : Bool) (safety : Option ZoneEntrance)
    (st : LoopSt) : Prop where
  ordShare : opts.race_mode = true → ∀ pre r post, st.pending = pre ++ r :: post →
    isRealSharing d b c r → ∀ e ∈ pre, isShared d b c e ∨ safety = some e
  placedShare : opts.race_mode = true → (∃ r ∈ st.pending, isRealSharing d b c r) →
    ∀ p ∈ st.e2x, isShared d b c p.1 ∨ safety = some p.1
  bossFree : opts.race_mode = true → ∀ p ∈ st.e2x, p.2 ∈ BOSS_EXITS →
    ¬ isRealSharing d b c p.1

theorem raceInv_defer {opts : EngineOptions} {d b c : Bool} {st : LoopSt}
    {safety : Option ZoneEntrance} {e : ZoneEntrance} {rest : List ZoneEntrance}
    (hri : RaceInv opts d b c safety st)
    (hp : st.pending = e :: rest) (hinc : resolveChain e st.x2e = .incomplete) :
    RaceInv opts d b c safety { st with pending := rest ++ [e] } := by
  have hisl : e.island_name = none := by
    by_cases hn : e.is_nested = true
    · unfold ZoneEntrance.is_nested at hn
      exact Option.isNone_iff_eq_none.mp hn
    · rw [resolveChain_not_nested hn st.x2e] at hinc
      cases hinc
  have hnotreal : ¬ isRealSharing d b c e := fun hr => hr.1 hisl
  refine ⟨?_, ?_, ?_⟩
  · intro hrace pre r post hpend hr x hx
    have hre : r ≠ e := by
      intro hh
      rw [hh] at hr
      exact hnotreal hr
    rcases split_of_append_single rest e r pre post hpend hre with ⟨post0, hpost, hrest⟩
    have hpend2 : st.pending = (e :: pre) ++ r :: post0 := by
      rw [hp, hrest]
      rfl
    exact hri.ordShare hrace (e :: pre) r post0 hpend2 hr x (List.mem_cons_of_mem e hx)
  · intro hrace hex p hpmem
    rcases hex with ⟨r, hrp, hrs⟩
    rcases List.mem_append.mp hrp with hr1 | hr2
    · exact hri.placedShare hrace ⟨r, by rw [hp]; exact List.mem_cons_of_mem e hr1, hrs⟩
        p hpmem
    · exfalso
      rcases List.mem_singleton.mp hr2 with rfl
      exact hnotreal hrs
  · intro hrace p hpmem hpB
    exact hri.bossFree hrace p hpmem hpB

theorem raceInv_place {opts : EngineOptions} {d b c : Bool} {st : LoopSt}
    {doing : Bool} {safety : Option ZoneEntrance}
    {e : ZoneEntrance} {chosen : ZoneExit} {rest : List ZoneEntrance}
    (h : LoopInv opts d b c st) (hri : RaceInv opts d b c safety st)
    (hbd : b = true → d = true)
    (hp : st.pending = e :: rest)
    (hchosen : chosen ∈ possibleExitsFor opts doing safety (exitNamesNoReq opts)
      st.e2x st.remaining e) :
    RaceInv opts d b c safety ⟨rest, st.remaining.erase chosen, dictSet st.e2x e chosen,
      dictSet st.x2e chosen e, dictSet st.conns e.entrance_name chosen.unique_name,
      st.idx + 1⟩ := by
  have hnodE := h.sides_nodup.1
  rw [hp] at hnodE
  have heK : ∀ p ∈ st.e2x, p.1 ≠ e := by
    intro p hpp hpe
    exact (List.nodup_append.mp hnodE).2.2 (List.mem_map.mpr ⟨p, hpp, hpe⟩)
      (List.mem_cons_self e rest)
  have he2x : dictSet st.e2x e chosen = st.e2x ++ [(e, chosen)] := dictSet_fresh _ _ _ heK
  refine ⟨?_, ?_, ?_⟩
  · intro hrace pre r post hpend hr x hx
    have hrw : rest = pre ++ r :: post := hpend
    have hpend2 : st.pending = (e :: pre) ++ r :: post := by
      rw [hp, hrw]
      rfl
    exact hri.ordShare hrace (e :: pre) r post hpend2 hr x (List.mem_cons_of_mem e hx)
  · intro hrace hex p hpmem
    rcases hex with ⟨r, hrp, hrs⟩
    have hrp2 : r ∈ rest := hrp
    have hex2 : ∃ r2 ∈ st.pending, isRealSharing d b c r2 :=
      ⟨r, by rw [hp]; exact List.mem_cons_of_mem e hrp2, hrs⟩
    have hpmem2 : p ∈ st.e2x ++ [(e, chosen)] := by
      rw [← he2x]
      exact hpmem
    rcases List.mem_append.mp hpmem2 with hold | hnew
    · exact hri.placedShare hrace hex2 p hold
    · rcases List.mem_singleton.mp hnew with rfl
      rcases List.append_of_mem hrp2 with ⟨pre2, post2, hsplit⟩
      have hpend2 : st.pending = (e :: pre2) ++ r :: post2 := by
        rw [hp, hsplit]
        rfl
      exact hri.ordShare hrace (e :: pre2) r post2 hpend2 hrs e (List.mem_cons_self e pre2)
  · intro hrace p hpmem hpB
    have hpmem2 : p ∈ st.e2x ++ [(e, chosen)] := by
      rw [← he2x]
      exact hpmem
    rcases List.mem_append.mp hpmem2 with hold | hnew
    · exact hri.bossFree hrace p hold hpB
    · rcases List.mem_singleton.mp hnew with rfl
      intro hrs
      have hcR : chosen ∈ st.remaining :=
        possible_subset_remaining opts doing safety (exitNamesNoReq opts) st.e2x
          st.remaining e chosen hchosen
      have hcRel : chosen ∈ relevantExitsFor d b c :=
        h.permX.subset (List.mem_append_right _ hcR)
      by_cases hb : b = true
      · have hd : d = true := hbd hb
        have hno := possible_boss_no_dungeon opts doing safety st.e2x st.remaining e
          hchosen hpB
        have hshare : ∀ q ∈ st.e2x, q.2 ∈ DUNGEON_EXITS →
            isShared d b c q.1 ∨ safety = some q.1 := by
          intro q hq hqD
          exact hri.placedShare hrace ⟨e, by rw [hp]; exact List.mem_cons_self e rest, hrs⟩
            q hq
        rcases dungeon_exit_remains h hrace hd hshare with ⟨dx, hdxR, hdxD⟩
        exact hno dx hdxR hdxD
      · have hbf : b = false := by
          revert hb
          cases b <;> simp
        rw [hbf] at hcRel
        exact no_boss_exit_relevant d c chosen hcRel hpB

theorem assignLoop_race_inv {opts : EngineOptions} {d b c : Bool} {doing : Bool}
    {safety : Option ZoneEntrance} {stream : Nat → Nat} (hbd : b = true → d = true) :
    ∀ (fuel : Nat) (st st2 : LoopSt), LoopInv opts d b c st →
      RaceInv opts d b c safety st →
      assignLoop opts doing safety (exitNamesNoReq opts) stream fuel st = .ok st2 →
      RaceInv opts d b c safety st2 := by
  intro fuel
  induction fuel with
  | zero =>
    intro st st2 h hri hrun
    simp [assignLoop] at hrun
  | succ f ih =>
    intro st st2 h hri hrun
    rw [assignLoop] at hrun
    cases hp : st.pending with
    | nil =>
      simp only [hp] at hrun
      injection hrun with hrun
      subst hrun
      exact hri
    | cons e rest =>
      simp only [hp] at hrun
      cases hres : resolveChain e st.x2e with
      | incomplete =>
        simp only [hres] at hrun
        exact ih _ _ (loopInv_defer h hp) (raceInv_defer hri hp hres) hrun
      | complete w =>
        simp only [hres] at hrun
        cases hposs : possibleExitsFor opts doing safety (exitNamesNoReq opts)
            st.e2x st.remaining e with
        | nil => simp only [hposs] at hrun; cases hrun
        | cons x xs =>
          simp only [hposs] at hrun
          have hchm : ((x :: xs).getD (stream st.idx % (xs.length + 1)) x) ∈
              possibleExitsFor opts doing safety (exitNamesNoReq opts)
                st.e2x st.remaining e := by
            rw [hposs]
            exact pick_mem (stream st.idx) x xs
          exact ih _ _ (loopInv_place h hp ⟨w, hres⟩ hchm)
            (raceInv_place h hri hbd hp hchm) hrun
      | cycleErr => simp only [hres] at hrun; cases hrun
      | catalogErr => simp only [hres] at hrun; cases hrun
      | fuelOut => simp only [hres] at hrun; cases hrun

theorem raceInv_init {opts : EngineOptions} {d b c : Bool} {shuffled : List ZoneEntrance}
    {stream : Nat → Nat} {safety : Option ZoneEntrance} {pending0 : List ZoneEntrance}
    {idx0 : Nat}
    (hperm : shuffled.Perm (relevantEntrancesFor d b c))
    (hp : prepSafety opts d c shuffled stream = .ok (safety, pending0, idx0)) :
    RaceInv opts d b c safety ⟨pending0, relevantExitsFor d b c, [], [], [], idx0⟩ := by
  have hndsh : shuffled.Nodup := hperm.nodup_iff.mpr (relevantEntrancesFor_nodup d b c)
  have haperm : (afterRaceList opts shuffled).Perm shuffled := by
    unfold afterRaceList
    split
    · exact raceModeReorder_perm shuffled hndsh
    · exact List.Perm.refl _
  have hlnod : (afterRaceList opts shuffled).Nodup := haperm.nodup_iff.mpr hndsh
  refine ⟨?_, ?_, ?_⟩
  · intro hrace pre r post hpend hr x hx
    have hpend0 : pending0 = pre ++ r :: post := hpend
    have hal : afterRaceList opts shuffled =
        entrancesNotOnUniqueIslands shuffled ++
          (entrancesNotOnUniqueIslands shuffled).foldl (fun acc z => acc.erase z) shuffled := by
      simp [afterRaceList, hrace, raceModeReorder]
    have hnd0 : pending0.Nodup := (prepSafety_perm b hperm hp).nodup_iff.mpr
      (relevantEntrancesFor_nodup d b c)
    have hrrel : r ∈ relevantEntrancesFor d b c := (prepSafety_perm b hperm hp).subset
      (by rw [hpend0]; exact List.mem_append_right pre (List.mem_cons_self r post))
    have hrsh : r ∈ shuffled := hperm.mem_iff.mpr hrrel
    have hrm : r ∈ entrancesNotOnUniqueIslands shuffled :=
      mem_notUnique_of_shared hperm hrsh hr.2
    rcases prepSafety_shape hp with ⟨hsaf, hpd⟩ | ⟨s, hsaf, hsmem, hpd⟩
    · have heq : entrancesNotOnUniqueIslands shuffled ++
          (entrancesNotOnUniqueIslands shuffled).foldl (fun acc z => acc.erase z) shuffled =
          pre ++ r :: post := by
        rw [← hal, ← hpd, hpend0]
      have hnodAB : (entrancesNotOnUniqueIslands shuffled ++
          (entrancesNotOnUniqueIslands shuffled).foldl (fun acc z => acc.erase z)
            shuffled).Nodup := by
        rw [← hal]
        exact hlnod
      have hx2 : x ∈ entrancesNotOnUniqueIslands shuffled :=
        mem_left_of_mem_split _ _ pre post r heq hnodAB hrm x hx
      exact Or.inl (shared_of_mem_notUnique hperm hx2)
    · rw [hpd] at hpend0
      cases pre with
      | nil => cases hx
      | cons p0 pre2 =>
        injection hpend0 with h1 h2
        rcases List.mem_cons.mp hx with rfl | hx2
        · right
          rw [hsaf, h1]
        · have hernod : ((afterRaceList opts shuffled).erase s).Nodup := hlnod.erase s
          have hrer : r ∈ (afterRaceList opts shuffled).erase s := by
            rw [h2]
            exact List.mem_append_right pre2 (List.mem_cons_self r post)
          have hrne : r ≠ s := ((List.Nodup.mem_erase_iff hlnod).mp hrer).1
          by_cases hsm : s ∈ entrancesNotOnUniqueIslands shuffled
          · have herase : (afterRaceList opts shuffled).erase s =
                (entrancesNotOnUniqueIslands shuffled).erase s ++
                  (entrancesNotOnUniqueIslands shuffled).foldl (fun acc z => acc.erase z)
                    shuffled := by
              rw [hal]
              exact List.erase_append_left _ hsm
            have heq : (entrancesNotOnUniqueIslands shuffled).erase s ++
                (entrancesNotOnUniqueIslands shuffled).foldl (fun acc z => acc.erase z)
                  shuffled = pre2 ++ r :: post := by
              rw [← herase, h2]
              rfl
            have hnodAB : ((entrancesNotOnUniqueIslands shuffled).erase s ++
                (entrancesNotOnUniqueIslands shuffled).foldl (fun acc z => acc.erase z)
                  shuffled).Nodup := herase ▸ hernod
            have hrm2 : r ∈ (entrancesNotOnUniqueIslands shuffled).erase s :=
              (List.mem_erase_of_ne hrne).mpr hrm
            have hx3 : x ∈ (entrancesNotOnUniqueIslands shuffled).erase s :=
              mem_left_of_mem_split _ _ pre2 post r heq hnodAB hrm2 x hx2
            exact Or.inl (shared_of_mem_notUnique hperm (List.mem_of_mem_erase hx3))
          · have herase : (afterRaceList opts shuffled).erase s =
                entrancesNotOnUniqueIslands shuffled ++
                  ((entrancesNotOnUniqueIslands shuffled).foldl (fun acc z => acc.erase z)
                    shuffled).erase s := by
              rw [hal]
              exact List.erase_append_right _ hsm
            have heq : entrancesNotOnUniqueIslands shuffled ++
                ((entrancesNotOnUniqueIslands shuffled).foldl (fun acc z => acc.erase z)
                  shuffled).erase s = pre2 ++ r :: post := by
              rw [← herase, h2]
              rfl
            have hnodAB : (entrancesNotOnUniqueIslands shuffled ++
                ((entrancesNotOnUniqueIslands shuffled).foldl (fun acc z => acc.erase z)
                  shuffled).erase s).Nodup := herase ▸ hernod
            have hx3 : x ∈ entrancesNotOnUniqueIslands shuffled :=
              mem_left_of_mem_split _ _ pre2 post r heq hnodAB hrm x hx2
            exact Or.inl (shared_of_mem_notUnique hperm hx3)
  · intro hrace hex p hpmem
    simp at hpmem
  · intro hrace p hpmem hpB
    simp at hpmem

/-! ### Claims -/

/-- C1: for every run of `randomize_one_set_of_entrances` over any selected
combination of the Dungeon, Boss, and SecretCave categories that returns
without raising, the recorded entrance-to-exit connections form a bijection
between the selected entrance set and the selected exit set: every selected
entrance is paired with exactly one selected exit, every selected exit is
the target of exactly one selected entrance, and the two sets have equal
cardinality. -/
theorem c1_connections_bijective (opts : EngineOptions) (d b c : Bool)
    (shuffled : List ZoneEntrance) (stream : Nat → Nat) (fuel : Nat)
    (out : RunOut) (muts : List Mutation)
    (hperm : shuffled.Perm (relevantEntrancesFor d b c))
    (hrun : runOneSet opts d b c shuffled stream fuel = (.ok out, muts)) :
    (∀ e ∈ relevantEntrancesFor d b c, ∃! x, (e, x) ∈ out.e2x) ∧
    (∀ x ∈ relevantExitsFor d b c, ∃! e, (e, x) ∈ out.e2x) ∧
    (out.e2x.map Prod.fst).Perm (relevantEntrancesFor d b c) ∧
    (out.e2x.map Prod.snd).Perm (relevantExitsFor d b c) ∧
    (relevantEntrancesFor d b c).length = (relevantExitsFor d b c).length := by
  rcases runOneSet_ok_facts hperm hrun with ⟨st, hinv, hpend, hrem, he1, -, -, -⟩
  have hpe : (st.e2x.map Prod.fst).Perm (relevantEntrancesFor d b c) := by
    have hh := hinv.permE
    rw [hpend] at hh
    simpa using hh
  have hpx : (st.e2x.map Prod.snd).Perm (relevantExitsFor d b c) := by
    have hh := hinv.permX
    rw [hrem] at hh
    simpa using hh
  have hndf : (st.e2x.map Prod.fst).Nodup :=
    hpe.nodup_iff.mpr (relevantEntrancesFor_nodup d b c)
  have hnds : (st.e2x.map Prod.snd).Nodup :=
    hpx.nodup_iff.mpr (relevantExitsFor_nodup d b c)
  rw [he1]
  refine ⟨?_, ?_, hpe, hpx, relevant_length_eq d b c⟩
  · intro e he
    have hm : e ∈ st.e2x.map Prod.fst := hpe.mem_iff.mpr he
    rcases List.mem_map.mp hm with ⟨p, hp, hp1⟩
    refine ⟨p.2, ?_, ?_⟩
    · have hpp : p = (e, p.2) := Prod.ext hp1 rfl
      exact hpp ▸ hp
    · intro y hy
      have := fst_nodup_unique hndf (e, y) hy p hp (by rw [hp1])
      exact congrArg Prod.snd this |>.trans rfl
  · intro x hx
    have hm : x ∈ st.e2x.map Prod.snd := hpx.mem_iff.mpr hx
    rcases List.mem_map.mp hm with ⟨p, hp, hp2⟩
    refine ⟨p.1, ?_, ?_⟩
    · have hpp : p = (p.1, x) := Prod.ext rfl hp2
      exact hpp ▸ hp
    · intro y hy
      have := snd_nodup_unique hnds (y, x) hy p hp (by rw [hp2])
      exact congrArg Prod.fst this |>.trans rfl

theorem c1_witness :
    (outDungeonsOnly.e2x.map Prod.fst).Perm (relevantEntrancesFor true false false) ∧
    (outDungeonsOnly.e2x.map Prod.snd).Perm (relevantExitsFor true false false) ∧
    (relevantEntrancesFor true false false).length =
      (relevantExitsFor true false false).length :=
  have h := c1_connections_bijective {} true false false DUNGEON_ENTRANCES (fun _ => 0) 42
    outDungeonsOnly runDungeonsOnly.2 (by decide) rfl
  ⟨h.2.2.1, h.2.2.2.1, h.2.2.2.2⟩

/-- C2 (corrected): the code's guard at lines 253-255 only withholds Boss
exits while a Dungeon exit is still among the candidates, so the invariant
that actually holds is: a Boss-category exit is never chosen while a
Dungeon exit of the run's selected pool remains unplaced.  (The original
claim — never while ANY non-Boss exit remains — is refuted by
`c2_counterexample`.)  Stated over the placement order, which is the order
of the `done_entrances_to_exits` association list. -/
theorem c2_boss_after_dungeons (opts : EngineOptions) (d b c : Bool)
    (shuffled : List ZoneEntrance) (stream : Nat → Nat) (fuel : Nat)
    (out : RunOut) (muts : List Mutation)
    (hperm : shuffled.Perm (relevantEntrancesFor d b c))
    (hrun : runOneSet opts d b c shuffled stream fuel = (.ok out, muts)) :
    out.e2x.Pairwise (fun p q => p.2 ∈ BOSS_EXITS → q.2 ∉ DUNGEON_EXITS) := by
  rcases runOneSet_ok_facts hperm hrun with ⟨st, hinv, -, -, he1, -⟩
  rw [he1]
  exact hinv.bossOrd

theorem c2_boss_after_dungeons_witness :
    outTogether.e2x.Pairwise (fun p q => p.2 ∈ BOSS_EXITS → q.2 ∉ DUNGEON_EXITS) :=
  c2_boss_after_dungeons {} true true true shuffledTogether (fun _ => 0) 100
    outTogether runTogether.2 (by decide) rfl

/-- C2 counterexample: with all three categories selected and the identity
shuffle / constant-0 rng, the run succeeds and places the Gohma Boss Arena
(a Boss exit) as the 6th pairing while the Savage Labyrinth (a SecretCave
exit) is only placed as the 11th pairing — i.e. a Boss exit is chosen while
a non-Boss exit of the same run's pool is still unplaced, refuting the
claim that Boss exits are chosen only after every non-Boss exit. -/
theorem c2_counterexample :
    runTogether = (.ok outTogether, runTogether.2) ∧
    (outTogether.e2x.map Prod.snd).getD 5 defaultExit = gohmaExit ∧
    gohmaExit ∈ BOSS_EXITS ∧
    (outTogether.e2x.map Prod.snd).getD 10 defaultExit = savageExit ∧
    savageExit ∈ SECRET_CAVE_EXITS ∧
    ¬ outTogether.e2x.Pairwise
      (fun p q => p.2 ∈ BOSS_EXITS → q.2 ∉ DUNGEON_EXITS ∧ q.2 ∉ SECRET_CAVE_EXITS) :=
  ⟨rfl, by decide, by decide, by decide, by decide, by decide⟩

/-- C3 (code bug, line 255): with the restricted start and progression
dungeons selected (dungeons-only run), the bootstrap filter of line 249
restricts the safety entrance's candidates to the allow-list, but when a
Dungeon exit is among those candidates, line 255 rebuilds the candidate
list from the UNFILTERED `remaining_exits` (dropping the allow-list
restriction).  Concretely: the safety entrance is the Dungeon Entrance on
Dragon Roost Island, the allow-list for this configuration is exactly
["Dragon Roost Cavern"], yet with rng index 1 the run assigns the safety
entrance "Forbidden Woods", which is not in the allow-list. -/
theorem c3_safety_allowlist_violated :
    doingProgressFlag optsC3 true false = true ∧
    safetyC3 = some driDungeonEntrance ∧
    exitNamesNoReq optsC3 = ["Dragon Roost Cavern"] ∧
    runC3 = (.ok outC3, runC3.2) ∧
    dictGet outC3.conns driDungeonEntrance.entrance_name = some "Forbidden Woods" ∧
    "Forbidden Woods" ∉ exitNamesNoReq optsC3 :=
  ⟨rfl, by decide, rfl, rfl, by decide, by decide⟩

/-- C4: when race_mode is on, in the completed mapping of any successful run
(over the caller's valid selections, where bosses come only with dungeons),
for every pair of distinct placed entrances that share the same island name,
at most one of the two is connected to a Dungeon- or Boss-category exit.
The race filter directly blocks a second same-island Dungeon exit, and a
shared-island entrance can never receive a Boss exit: the island-grouping
reorder processes it while the placed same-island-or-island-less entrances
can have consumed at most four of the five Dungeon exits, so the line-253
guard still withholds Boss exits. -/
theorem c4_race_island_pairs (opts : EngineOptions) (d b c : Bool)
    (shuffled : List ZoneEntrance) (stream : Nat → Nat) (fuel : Nat)
    (out : RunOut) (muts : List Mutation)
    (hperm : shuffled.Perm (relevantEntrancesFor d b c))
    (hrun : runOneSet opts d b c shuffled stream fuel = (.ok out, muts))
    (hrace : opts.race_mode = true) (hbd : b = true → d = true) :
    out.e2x.Pairwise (fun p q => ∀ isl, p.1.island_name = some isl →
      q.1.island_name = some isl →
      ¬(p.2 ∈ DUNGEON_EXITS ++ BOSS_EXITS ∧ q.2 ∈ DUNGEON_EXITS ++ BOSS_EXITS)) := by
  unfold runOneSet at hrun
  cases hprep : prepSafety opts d c shuffled stream with
  | error err =>
    simp only [hprep] at hrun
    cases congrArg Prod.fst hrun
  | ok trip =>
    obtain ⟨safety, pending0, idx0⟩ := trip
    simp only [hprep] at hrun
    cases hloop : assignLoop opts (doingProgressFlag opts d c) safety (exitNamesNoReq opts)
        stream fuel ⟨pending0, relevantExitsFor d b c, [], [], [], idx0⟩ with
    | error err =>
      simp only [hloop] at hrun
      cases congrArg Prod.fst hrun
    | ok st =>
      simp only [hloop] at hrun
      have hinit := loopInv_init opts d b c pending0 (prepSafety_perm b hperm hprep) [] idx0
      have hrinit := raceInv_init hperm hprep
      have hfin := assignLoop_ok_inv fuel _ st hinit hloop
      have hrfin := assignLoop_race_inv hbd fuel _ st hinit hrinit hloop
      rcases finishRun_ok hfin.1 hfin.2 with ⟨out2, muts2, hfr, he1, -, -, -⟩
      rw [hfr] at hrun
      have h1 : Except.ok out2 = Except.ok out := congrArg Prod.fst hrun
      injection h1 with h1
      subst h1
      rw [he1]
      have hndf : (st.e2x.map Prod.fst).Nodup := by
        have hh := hfin.1.sides_nodup.1
        rw [hfin.2] at hh
        simpa using hh
      have hpw1 : st.e2x.Pairwise (fun p q => p.1 ≠ q.1) := List.pairwise_map.mp hndf
      have hcomb := hpw1.and (hfin.1.racePair hrace)
      refine hcomb.imp_of_mem ?_
      intro p q hpm hqm hpq isl hpisl hqisl hboth
      rcases hpq with ⟨hne, hR⟩
      rcases hboth with ⟨hpDB, hqDB⟩
      have hrelP : p.1 ∈ relevantEntrancesFor d b c := by
        have hm : p.1 ∈ (st.e2x.map Prod.fst) ++ st.pending :=
          List.mem_append_left _ (List.mem_map.mpr ⟨p, hpm, rfl⟩)
        exact hfin.1.permE.subset hm
      have hrelQ : q.1 ∈ relevantEntrancesFor d b c := by
        have hm : q.1 ∈ (st.e2x.map Prod.fst) ++ st.pending :=
          List.mem_append_left _ (List.mem_map.mpr ⟨q, hqm, rfl⟩)
        exact hfin.1.permE.subset hm
      have hshP : isRealSharing d b c p.1 :=
        ⟨by rw [hpisl]; simp, q.1, hrelQ, fun hh => hne hh.symm, hqisl.trans hpisl.symm⟩
      have hshQ : isRealSharing d b c q.1 :=
        ⟨by rw [hqisl]; simp, p.1, hrelP, hne, hpisl.trans hqisl.symm⟩
      have hpB : p.2 ∉ BOSS_EXITS := fun hb => hrfin.bossFree hrace p hpm hb hshP
      have hqB : q.2 ∉ BOSS_EXITS := fun hb => hrfin.bossFree hrace q hqm hb hshQ
      have hpD : p.2 ∈ DUNGEON_EXITS := by
        rcases List.mem_append.mp hpDB with hD | hB
        · exact hD
        · exact absurd hB hpB
      have hqD : q.2 ∈ DUNGEON_EXITS := by
        rcases List.mem_append.mp hqDB with hD | hB
        · exact hD
        · exact absurd hB hqB
      exact hR (hpisl.trans hqisl.symm) ⟨hpD, hqD⟩

theorem c4_race_island_pairs_witness :
    outRace.e2x.Pairwise (fun p q => ∀ isl, p.1.island_name = some isl →
      q.1.island_name = some isl →
      ¬(p.2 ∈ DUNGEON_EXITS ++ BOSS_EXITS ∧ q.2 ∈ DUNGEON_EXITS ++ BOSS_EXITS)) :=
  c4_race_island_pairs { race_mode := true } true true true shuffledRace streamRace 200
    outRace runRace.2 (by decide) rfl rfl (fun _ => rfl)

/-- C5: for every catalog entrance and partial connection map with catalog
values, chain resolution either completes, reports incomplete, or raises
the fatal cycle error; a completed result is a duplicate-free list running
from the queried entrance to an outermost one in which every element but
the last is nested and the last has a non-empty island name; the incomplete
result occurs exactly when some nested entrance reached on the walk has its
owning dungeon exit unconnected; and in any successfully completed run
every placed entrance resolves completely with a non-nested terminal. -/
theorem c5_chain_resolution (e : ZoneEntrance) (m : List (ZoneExit × ZoneEntrance))
    (hm : ∀ p ∈ m, p.2 ∈ ALL_ENTRANCES) (he : e ∈ ALL_ENTRANCES) :
    ((∃ l, resolveChain e m = .complete l) ∨ resolveChain e m = .incomplete ∨
      resolveChain e m = .cycleErr) ∧
    (∀ l, resolveChain e m = .complete l →
      l.Nodup ∧ l.head? = some e ∧ (∀ y ∈ l.dropLast, y.is_nested = true) ∧
      ∃ z, l.getLast? = some z ∧ z.island_name.isSome = true) ∧
    (resolveChain e m = .incomplete →
      ∃ y dx, (y = e ∨ ∃ dx0, lookupX2E m dx0 = some y) ∧ y.is_nested = true ∧
        get_dungeon_start_exit_leading_to_nested_entrance y = some dx ∧
        lookupX2E m dx = none) ∧
    (∀ (opts : EngineOptions) (d b c : Bool) (shuffled : List ZoneEntrance)
        (stream : Nat → Nat) (fuel : Nat) (out : RunOut) (muts : List Mutation),
      shuffled.Perm (relevantEntrancesFor d b c) →
      runOneSet opts d b c shuffled stream fuel = (.ok out, muts) →
      ∀ p ∈ out.e2x, ∃ l z, resolveChain p.1 out.x2e = .complete l ∧
        l.getLast? = some z ∧ z.island_name.isSome = true) := by
  have hiso : ∀ z : ZoneEntrance, z.is_nested = false → z.island_name.isSome = true := by
    intro z hz
    unfold ZoneEntrance.is_nested at hz
    cases h : z.island_name with
    | none => rw [h] at hz; simp at hz
    | some s => rfl
  refine ⟨resolveChain_trichotomy e m hm he, ?_, ?_, ?_⟩
  · intro l hl
    have hl2 : get_all_entrances_on_path_to_entrance chainFuel [] e m =
        .complete ([] ++ l) := by simpa using hl
    rcases chain_decomp chainFuel [] e m ([] ++ l) hl2 with
      ⟨t, hteq, -, hthd, -, hdrop, hlast, hnd, -⟩
    have ht : l = t := by simpa using hteq
    subst ht
    rcases hlast with ⟨z, hz, hzn⟩
    exact ⟨hnd, hthd, hdrop, z, hz, hiso z hzn⟩
  · intro hl
    exact chain_incomplete_spec chainFuel [] e m hl
  · intro opts d b c shuffled stream fuel out muts hperm hrun
    rcases runOneSet_ok_facts hperm hrun with ⟨st, hinv, -, -, he1, he2, -⟩
    rw [he1, he2]
    intro p hp
    rcases final_chain_last hinv p hp with ⟨l, z, hc, hz, hzn⟩
    exact ⟨l, z, hc, hz, hiso z hzn⟩

theorem c5_witness :
    resolveChain driDungeonEntrance [] = ChainRes.complete [driDungeonEntrance] ∧
    resolveChain bossEntranceDRC [] = ChainRes.incomplete ∧
    [driDungeonEntrance].Nodup := by
  refine ⟨by decide, by decide, ?_⟩
  exact ((c5_chain_resolution driDungeonEntrance [] (by decide) (by decide)).2.1
    [driDungeonEntrance] (by decide)).1

/-- C6: with any valid shuffle, a run that fails (returns an error) has
issued zero mutation calls to the external stage-data store, and a dry-run
never issues any: mutations are emitted only after the whole mapping is
finalized.  (The finalization phases cannot fail after a completed
assignment because every placed chain is already resolvable, so the error
paths that would carry partial mutation logs are unreachable.) -/
theorem c6_failure_no_mutations (opts : EngineOptions) (d b c : Bool)
    (shuffled : List ZoneEntrance) (stream : Nat → Nat) (fuel : Nat)
    (hperm : shuffled.Perm (relevantEntrancesFor d b c)) :
    (∀ err muts, runOneSet opts d b c shuffled stream fuel = (.error err, muts) →
      muts = []) ∧
    (opts.dry_run = true → ∀ out muts,
      runOneSet opts d b c shuffled stream fuel = (.ok out, muts) → muts = []) := by
  constructor
  · intro err muts hrun
    unfold runOneSet at hrun
    cases hprep : prepSafety opts d c shuffled stream with
    | error e =>
      simp only [hprep] at hrun
      exact (congrArg Prod.snd hrun).symm
    | ok trip =>
      obtain ⟨safety, pending0, idx0⟩ := trip
      simp only [hprep] at hrun
      cases hloop : assignLoop opts (doingProgressFlag opts d c) safety (exitNamesNoReq opts)
          stream fuel ⟨pending0, relevantExitsFor d b c, [], [], [], idx0⟩ with
      | error e2 =>
        simp only [hloop] at hrun
        exact (congrArg Prod.snd hrun).symm
      | ok st =>
        simp only [hloop] at hrun
        have hinit := loopInv_init opts d b c pending0 (prepSafety_perm b hperm hprep) [] idx0
        have hfin := assignLoop_ok_inv fuel _ st hinit hloop
        rcases finishRun_ok hfin.1 hfin.2 with ⟨out2, muts2, hfr, -, -, -, -⟩
        rw [hfr] at hrun
        have h1 := congrArg Prod.fst hrun
        simp at h1
  · intro hdr out muts hrun
    unfold runOneSet at hrun
    cases hprep : prepSafety opts d c shuffled stream with
    | error e =>
      simp only [hprep] at hrun
      cases congrArg Prod.fst hrun
    | ok trip =>
      obtain ⟨safety, pending0, idx0⟩ := trip
      simp only [hprep] at hrun
      cases hloop : assignLoop opts (doingProgressFlag opts d c) safety (exitNamesNoReq opts)
          stream fuel ⟨pending0, relevantExitsFor d b c, [], [], [], idx0⟩ with
      | error e2 =>
        simp only [hloop] at hrun
        cases congrArg Prod.fst hrun
      | ok st =>
        simp only [hloop] at hrun
        have hinit := loopInv_init opts d b c pending0 (prepSafety_perm b hperm hprep) [] idx0
        have hfin := assignLoop_ok_inv fuel _ st hinit hloop
        rcases finishRun_ok hfin.1 hfin.2 with ⟨out2, muts2, hfr, -, -, -, hdry⟩
        rw [hfr] at hrun
        exact ((congrArg Prod.snd hrun).symm).trans (hdry hdr)

theorem c6_witness :
    runC3.2 = [] ∧
    runOneSet {} false true false BOSS_ENTRANCES (fun _ => 0) 10 =
      (.error .outOfFuel, []) ∧
    (runOneSet {} false true false BOSS_ENTRANCES (fun _ => 0) 10).2 = [] :=
  ⟨(c6_failure_no_mutations optsC3 true false false DUNGEON_ENTRANCES (fun _ => 1) 42
      (by decide)).2 rfl outC3 runC3.2 rfl,
   rfl,
   (c6_failure_no_mutations {} false true false BOSS_ENTRANCES (fun _ => 0) 10
      (by decide)).1 .outOfFuel _ rfl⟩

/-- C7: with bosses only ever selected together with dungeons (the only
combinations the caller passes), the assignment loop cannot run forever: the
quadratic fuel budget `loopFuel` is never exhausted from any initial queue;
an entrance is deferred (pushed to the back without consuming an exit) only
when it is a nested Boss entrance whose owning dungeon start exit is not yet
connected; and whenever the loop returns normally its queue is empty with
every relevant entrance placed. -/
theorem c7_loop_terminates (opts : EngineOptions) (d b c : Bool) (doing : Bool)
    (safety : Option ZoneEntrance) (stream : Nat → Nat)
    (hbd : b = true → d = true) :
    (∀ (pending0 : List ZoneEntrance) (conns0 : List (String × String)) (idx0 : Nat),
      pending0.Perm (relevantEntrancesFor d b c) →
      assignLoop opts doing safety (exitNamesNoReq opts) stream
        (loopFuel (relevantEntrancesFor d b c).length)
        ⟨pending0, relevantExitsFor d b c, [], [], conns0, idx0⟩ ≠ .error .outOfFuel) ∧
    (∀ st : LoopSt, LoopInv opts d b c st → ∀ e rest, st.pending = e :: rest →
      resolveChain e st.x2e = .incomplete →
      e.is_nested = true ∧ e ∈ BOSS_ENTRANCES ∧
      ∃ dx, get_dungeon_start_exit_leading_to_nested_entrance e = some dx ∧
        dx ∈ DUNGEON_EXITS ∧ lookupX2E st.x2e dx = none) ∧
    (∀ (fuel : Nat) (st st2 : LoopSt), LoopInv opts d b c st →
      assignLoop opts doing safety (exitNamesNoReq opts) stream fuel st = .ok st2 →
      st2.pending = [] ∧ (st2.e2x.map Prod.fst).Perm (relevantEntrancesFor d b c)) := by
  refine ⟨?_, ?_, ?_⟩
  · intro pending0 conns0 idx0 hperm
    have hinv := loopInv_init opts d b c pending0 hperm conns0 idx0
    refine loop_term_aux hbd _ _ (relevantEntrancesFor d b c).length hinv ?_ ?_
    · simpa using le_of_eq hperm.length_eq
    · by_cases hp0 : pending0 = []
      · left
        refine ⟨hp0, ?_⟩
        simp [loopFuel]
      · right
        rcases exists_placeable hinv hbd (by simpa using hp0) with ⟨eP, heP, hw⟩
        simp only at heP
        rcases List.append_of_mem heP with ⟨pre, post, hsplit⟩
        refine ⟨pre, eP, post, by simpa using hsplit, hw, ?_⟩
        have hlen : pending0.length = pre.length + post.length + 1 := by
          rw [hsplit]
          simp only [List.length_append, List.length_cons]
          omega
        have hplen : pending0.length = (relevantEntrancesFor d b c).length :=
          hperm.length_eq
        simp only [loopFuel]
        rw [hplen] at hlen
        show pending0.length * ((relevantEntrancesFor d b c).length + 1) + pre.length + 1 ≤ _
        rw [hplen]
        omega
  · intro st hinv e rest hp hres
    have hepend : e ∈ st.pending := hp ▸ List.mem_cons_self e rest
    have heALL : e ∈ ALL_ENTRANCES := hinv.pending_mem_ALL e hepend
    by_cases hn : e.is_nested = true
    · have heb : e ∈ BOSS_ENTRANCES := nested_mem_boss e heALL hn
      rcases boss_entrance_owner e heb with ⟨dx, how, hdxD⟩
      refine ⟨hn, heb, dx, how, hdxD, ?_⟩
      cases hlk : lookupX2E st.x2e dx with
      | none => rfl
      | some e1 =>
        exfalso
        have hmem : (dx, e1) ∈ st.x2e := dictGet_mem hlk
        rw [hinv.mirror] at hmem
        rcases List.mem_map.mp hmem with ⟨q, hq, hqe⟩
        have hq1 : q.1 = e1 := congrArg Prod.snd hqe
        rcases hinv.chains q hq with ⟨l1, hc⟩
        rw [hq1] at hc
        have hc2 : get_all_entrances_on_path_to_entrance chainFuel [] e1 st.x2e =
            .complete ([] ++ l1) := by simpa using hc
        rcases chain_decomp chainFuel [] e1 st.x2e ([] ++ l1) hc2 with
          ⟨t, hteq, -, -, htmem, -, -, -, -⟩
        have ht : l1 = t := by simpa using hteq
        subst ht
        have hplaced : ∀ y ∈ l1, y ∈ st.e2x.map Prod.fst := by
          intro y hy
          rcases htmem y hy with rfl | ⟨dy, hdy⟩
          · exact List.mem_map.mpr ⟨q, hq, hq1⟩
          · have hdm : (dy, y) ∈ st.x2e := dictGet_mem hdy
            rw [hinv.mirror] at hdm
            rcases List.mem_map.mp hdm with ⟨r, hr, hre⟩
            exact List.mem_map.mpr ⟨r, hr, congrArg Prod.snd hre⟩
        have hne2 : e ∉ l1 := by
          intro hel
          exact (List.nodup_append.mp hinv.sides_nodup.1).2.2 (hplaced e hel) hepend
        have hcc := chain_cons_complete e e1 dx st.x2e l1 hinv.x2e_values heALL hn how
          hlk hc hne2
        rw [hcc] at hres
        cases hres
    · exfalso
      have hcmp : resolveChain e st.x2e = .complete [e] := by
        have h6 : chainFuel = 5 + 1 := rfl
        unfold resolveChain
        rw [h6, get_all_step, if_neg hn]
        rfl
      rw [hcmp] at hres
      cases hres
  · intro fuel st st2 hinv hok
    have h2 := assignLoop_ok_inv fuel st st2 hinv hok
    refine ⟨h2.2, ?_⟩
    have hp := h2.1.permE
    rw [h2.2] at hp
    simpa using hp

theorem c7_witness :
    assignLoop ({} : EngineOptions) false none (exitNamesNoReq {}) (fun _ => 0)
      (loopFuel (relevantEntrancesFor true false false).length)
      ⟨DUNGEON_ENTRANCES, relevantExitsFor true false false, [], [], [], 0⟩ ≠
      Except.error .outOfFuel :=
  (c7_loop_terminates {} true false false false none (fun _ => 0) (by decide)).1
    DUNGEON_ENTRANCES [] 0 (by decide)

/-- C8: after every successful run, `dungeon_and_cave_island_locations` maps
every placed exit's zone name to the island name of its resolved outermost
entrance, and when Dungeon entrances are included without Boss entrances it
additionally maps each dungeon exit's paired boss arena zone to the island
name of the dungeon's own connected entrance. -/
theorem c8_island_attribution (opts : EngineOptions) (d b c : Bool)
    (shuffled : List ZoneEntrance) (stream : Nat → Nat) (fuel : Nat)
    (out : RunOut) (muts : List Mutation)
    (hperm : shuffled.Perm (relevantEntrancesFor d b c))
    (hrun : runOneSet opts d b c shuffled stream fuel = (.ok out, muts)) :
    (∀ p ∈ out.e2x, ∃ l z, resolveChain p.1 out.x2e = .complete l ∧
      l.getLast? = some z ∧
      dictGet out.islandLocs p.2.zone_name = some z.island_name) ∧
    (b = false → d = true → ∀ dx ∈ DUNGEON_EXITS, ∃ e bx,
      lookupX2E out.x2e dx = some e ∧
      BOSS_EXITS.find? (fun z => decide (some z.stage_name = dx.boss_stage_name)) =
        some bx ∧
      dictGet out.islandLocs bx.zone_name = some e.island_name) := by
  rcases runOneSet_ok_facts hperm hrun with ⟨st, hinv, hpend, -, he1, he2, -, hfr⟩
  have h := finishRun_islandLocs hinv hpend hfr
  rw [he1, he2]
  exact h

theorem c8_witness :
    dictGet outDungeonsOnly.islandLocs gohmaExit.zone_name =
      some driDungeonEntrance.island_name := by
  rcases (c8_island_attribution {} true false false DUNGEON_ENTRANCES (fun _ => 0) 42
      outDungeonsOnly runDungeonsOnly.2 (by decide) rfl).2 rfl rfl
      (DUNGEON_EXITS.getD 0 defaultExit) (by decide) with ⟨e, bx, h1, h2, h3⟩
  have hconc : lookupX2E outDungeonsOnly.x2e (DUNGEON_EXITS.getD 0 defaultExit) =
      some driDungeonEntrance := by decide
  have hce := Option.some.inj (hconc.symm.trans h1)
  subst hce
  have hconc2 : BOSS_EXITS.find?
      (fun z => decide (some z.stage_name =
        (DUNGEON_EXITS.getD 0 defaultExit).boss_stage_name)) = some gohmaExit := by decide
  have hcb := Option.some.inj (hconc2.symm.trans h2)
  subst hcb
  exact h3

/-- Modelled from the spec's words for claim C9, not from the code: the
override table first replaces the nominal zone when the full identifier is
listed; then, if the resulting zone has an IslandAttribution entry and the
location is a dungeon/cave location, the result is the attributed island
name with an attributed "Tower of the Gods" yielding "Tower of the Gods
Sector"; otherwise the result is the (possibly overridden) nominal zone
name, with the identifier "Tower of the Gods - Sunken Treasure" yielding
"Tower of the Gods Sector". -/
def entranceZoneSpec (splitZone : String → String × String)
    (isDungeonOrCave : String → Bool) (island_locations : List (String × Option String))
    (location_name : String) : Option String :=
  let nominal : String :=
    match dictGet ITEM_LOCATION_NAME_TO_EXIT_ZONE_NAME_OVERRIDES location_name with
    | some ov => ov
    | none => (splitZone location_name).1
  match dictGet island_locations nominal, isDungeonOrCave location_name with
  | some attributed, true =>
    if attributed = some "Tower of the Gods" then some "Tower of the Gods Sector"
    else attributed
  | _, _ =>
    if location_name = "Tower of the Gods - Sunken Treasure" then
      some "Tower of the Gods Sector"
    else some nominal

/-- C9: `get_entrance_zone_for_item_location` behaves exactly as the spec
describes, for every location identifier and every pair of external helper
functions (`split_location_name_by_zone` and `is_dungeon_or_cave` live in
the logic module outside this snapshot and are taken as parameters). -/
theorem c9_entrance_zone (splitZone : String → String × String)
    (isDungeonOrCave : String → Bool) (island_locations : List (String × Option String))
    (location_name : String) :
    get_entrance_zone_for_item_location splitZone isDungeonOrCave island_locations
      location_name =
    entranceZoneSpec splitZone isDungeonOrCave island_locations location_name := by
  unfold get_entrance_zone_for_item_location entranceZoneSpec
  cases hov : dictGet ITEM_LOCATION_NAME_TO_EXIT_ZONE_NAME_OVERRIDES location_name with
  | none =>
    simp only [hov]
    cases hisl : dictGet island_locations (splitZone location_name).1 with
    | none => cases hdc : isDungeonOrCave location_name <;> simp [hisl, hdc]
    | some a => cases hdc : isDungeonOrCave location_name <;> simp [hisl, hdc]
  | some ov =>
    simp only [hov]
    cases hisl : dictGet island_locations ov with
    | none => cases hdc : isDungeonOrCave location_name <;> simp [hisl, hdc]
    | some a => cases hdc : isDungeonOrCave location_name <;> simp [hisl, hdc]

theorem c9_witness :
    get_entrance_zone_for_item_location (fun s => (s, "")) (fun _ => false) []
      "Tower of the Gods - Sunken Treasure" =
    entranceZoneSpec (fun s => (s, "")) (fun _ => false) []
      "Tower of the Gods - Sunken Treasure" :=
  c9_entrance_zone (fun s => (s, "")) (fun _ => false) []
    "Tower of the Gods - Sunken Treasure"

theorem boss_mem_relevant (d c : Bool) :
    ∀ e ∈ BOSS_ENTRANCES, e ∈ relevantEntrancesFor d true c := by
  cases d <;> cases c <;> decide

theorem boss_partner :
    ∀ e ∈ BOSS_ENTRANCES, ∃ e2 ∈ BOSS_ENTRANCES, ¬ e2 = e ∧
      e2.island_name = e.island_name := by
  decide

/-- C10: the race-mode island-sharing test is plain equality on the optional
island names, so the island-less nested Boss entrances all count as sharing
an island: with Boss entrances included under race mode, every Boss entrance
lands in the front (shared-island) block of the reorder, and once any
island-less entrance is connected to a Dungeon exit, Dungeon and Boss exits
are excluded from the candidates of every later island-less entrance. -/
theorem c10_islandless_grouping (d c : Bool) :
    (∀ shuffled : List ZoneEntrance, shuffled.Perm (relevantEntrancesFor d true c) →
      ∃ t, raceModeReorder shuffled = entrancesNotOnUniqueIslands shuffled ++ t ∧
        ∀ e ∈ BOSS_ENTRANCES, e ∈ entrancesNotOnUniqueIslands shuffled) ∧
    (∀ (opts : EngineOptions) (doing : Bool) (safety : Option ZoneEntrance)
        (exitNoReq : List String) (e2x : List (ZoneEntrance × ZoneExit))
        (remaining : List ZoneExit) (e : ZoneEntrance) (p : ZoneEntrance × ZoneExit),
      opts.race_mode = true → p ∈ e2x → p.1.island_name = none → e.island_name = none →
      p.2 ∈ DUNGEON_EXITS →
      ∀ x ∈ possibleExitsFor opts doing safety exitNoReq e2x remaining e,
        x ∉ DUNGEON_EXITS ∧ x ∉ BOSS_EXITS) := by
  constructor
  · intro shuffled hperm
    refine ⟨_, rfl, ?_⟩
    intro e heB
    have heRel : e ∈ shuffled := hperm.mem_iff.mpr (boss_mem_relevant d c e heB)
    unfold entrancesNotOnUniqueIslands
    rw [List.mem_filter]
    refine ⟨heRel, ?_⟩
    rcases boss_partner e heB with ⟨e2, he2B, hne, hisl⟩
    have he2Rel : e2 ∈ shuffled := hperm.mem_iff.mpr (boss_mem_relevant d c e2 he2B)
    rw [List.any_eq_true]
    refine ⟨e2, he2Rel, ?_⟩
    simp [hisl, hne]
  · intro opts doing safety exitNoReq e2x remaining e p hrace hp hpn hen hpd
    have hisl : p.1.island_name = e.island_name := by rw [hpn, hen]
    exact possible_race_excludes opts doing safety exitNoReq e2x remaining e hrace hp
      hisl hpd

theorem c10_witness :
    bossEntranceDRC ∈ entrancesNotOnUniqueIslands (relevantEntrancesFor true true true) ∧
    savageExit ∉ DUNGEON_EXITS ∧ savageExit ∉ BOSS_EXITS := by
  have h := c10_islandless_grouping true true
  rcases h.1 (relevantEntrancesFor true true true) (List.Perm.refl _) with ⟨t, -, hmem⟩
  refine ⟨hmem bossEntranceDRC (by decide), ?_⟩
  exact h.2 { race_mode := true } false none [] [(bossEntranceDRC, DUNGEON_EXITS.getD 0 defaultExit)]
    [savageExit] bossEntranceFW (bossEntranceDRC, DUNGEON_EXITS.getD 0 defaultExit)
    rfl (by decide) rfl rfl (by decide) savageExit (by decide)

end WWR
